import Mathlib

/-!
Verification development for the pgbackrest archive-get pipeline.

The definitions below are shallow embeddings of the C sources:
  * src/common/type/pack.c        (pack codec: tagged, gap-encoded binary records)
  * src/command/archive/get/get.c (foreground deadline loop, queueNeed, async run)
  * src/command/archive/get/protocol.c (worker request decoding)
  * src/config/load.c             (protocol-timeout vs db-timeout rule)
  * src/common/io/read.c          (buffered reads and line reads)

Machine integers are modelled as Nat with explicit truncation (% 2 ^ 32,
% 2 ^ 64) exactly where the C code performs a narrowing cast or where
unsigned overflow can occur.  Fallible C paths (THROW, CHECK, unexpected
EOF) are modelled with Option / Except.
-/

namespace Pack

/-- Field types, in the order of the packTypeData array in pack.c. -/
inductive PackType where
  | unknown
  | array
  | bin
  | bool
  | i32
  | i64
  | obj
  | ptr
  | str
  | time
  | u32
  | u64
deriving DecidableEq, Repr

/-- Numeric code of a type: its index in packTypeData (high nibble of the tag byte). -/
def PackType.code : PackType → Nat
  | .unknown => 0
  | .array => 1
  | .bin => 2
  | .bool => 3
  | .i32 => 4
  | .i64 => 5
  | .obj => 6
  | .ptr => 7
  | .str => 8
  | .time => 9
  | .u32 => 10
  | .u64 => 11

/-- packTypeData[type].valueMultiBit: the value may need multiple bits (integers). -/
def PackType.valueMultiBit : PackType → Bool
  | .i32 | .i64 | .ptr | .time | .u32 | .u64 => true
  | _ => false

/-- packTypeData[type].valueSingleBit: the value is a single bit (bool, str, bin). -/
def PackType.valueSingleBit : PackType → Bool
  | .bin | .bool | .str => true
  | _ => false

/-- packTypeData[type].size: the type stores a size and payload after the tag. -/
def PackType.hasSize : PackType → Bool
  | .bin | .str => true
  | _ => false

/-- Recover a type from the high nibble of a tag byte (`tag >> 4` in
pckReadTagNext).  Codes 12-15 index past the end of packTypeData in C
(undefined behavior); the model returns none there. -/
def PackType.ofCode : Nat → Option PackType
  | 0 => some .unknown
  | 1 => some .array
  | 2 => some .bin
  | 3 => some .bool
  | 4 => some .i32
  | 5 => some .i64
  | 6 => some .obj
  | 7 => some .ptr
  | 8 => some .str
  | 9 => some .time
  | 10 => some .u32
  | 11 => some .u64
  | _ => none

theorem PackType.ofCode_code (t : PackType) : PackType.ofCode t.code = some t := by
  cases t <;> rfl

theorem PackType.code_lt (t : PackType) : t.code < 12 := by
  cases t <;> decide

theorem PackType.code_pos (t : PackType) (h : t ≠ .unknown) : 1 ≤ t.code := by
  cases t <;> first | rfl | decide | exact absurd rfl h

/-- pckWriteUInt64Internal: base-128 little-endian varint encoding.  Each
emitted byte is `(unsigned char)value | 0x80` while `value >= 0x80`, then a
final byte `(unsigned char)value`. -/
def pckWriteUInt64Internal (value : Nat) : List Nat :=
  if _h : value < 0x80 then [value]
  else (value % 256 ||| 0x80) :: pckWriteUInt64Internal (value >>> 7)
termination_by value
decreasing_by
  simp only [Nat.shiftRight_eq_div_pow]
  exact Nat.div_lt_self (by omega) (by norm_num)

/-- pckReadUInt64Internal: the decoding loop.  `idx` is bufferIdx; the loop
runs at most PACK_UINT64_SIZE_MAX (10) iterations and then errors with
"unterminated base-128 integer".  The accumulation mirrors the C
`result |= (uint64_t)(byte & 0x7f) << (7 * bufferIdx)`, whose shift wraps
modulo 2^64. -/
def pckReadUInt64Loop : Nat → Nat → List Nat → Option (Nat × List Nat)
  | _, _, [] => none
  | idx, acc, b :: rest =>
    let acc := acc ||| ((b &&& 0x7f) <<< (7 * idx)) % 2 ^ 64
    if b < 0x80 then some (acc, rest)
    else if idx + 1 < 10 then pckReadUInt64Loop (idx + 1) acc rest
    else none

/-- pckReadUInt64Internal over a byte list: returns the value and the rest. -/
def pckReadUInt64Internal (bytes : List Nat) : Option (Nat × List Nat) :=
  pckReadUInt64Loop 0 0 bytes

theorem and_small (x y n : Nat) (h : y < 2 ^ n) : x &&& y = x % 2 ^ n &&& y := by
  apply Nat.eq_of_testBit_eq
  intro i
  rcases lt_or_ge i n with hi | hi
  · simp [Nat.testBit_and, Nat.testBit_mod_two_pow, hi]
  · have hy : y.testBit i = false := Nat.testBit_lt_two_pow (lt_of_lt_of_le h (Nat.pow_le_pow_right (by norm_num) hi))
    simp [Nat.testBit_and, hy]

theorem or_eq_add {k a b : Nat} (h : b < 2 ^ k) : a <<< k ||| b = a * 2 ^ k + b := by
  rw [Nat.shiftLeft_eq]
  rw [Nat.mul_comm a (2 ^ k)]
  exact (Nat.mul_add_lt_is_or h a).symm

theorem and_mask_mod (x n : Nat) : x &&& 2 ^ n - 1 = x % 2 ^ n :=
  Nat.and_pow_two_sub_one_eq_mod x n

set_option maxRecDepth 4000 in
theorem varint_head_low (v : Nat) :
    (v % 256 ||| 0x80) &&& 0x7f = v % 128 := by
  have h1 : ∀ x < 256, (x ||| 128) &&& 127 = x % 128 := by decide
  have h2 : v % 256 % 128 = v % 128 := Nat.mod_mod_of_dvd v (by norm_num)
  rw [h1 (v % 256) (Nat.mod_lt _ (by norm_num)), h2]

set_option maxRecDepth 4000 in
theorem varint_head_ge (v : Nat) : 0x80 ≤ (v % 256 ||| 0x80) := by
  have h1 : ∀ x < 256, 128 ≤ (x ||| 128) := by decide
  exact h1 (v % 256) (Nat.mod_lt _ (by norm_num))

/-- Round trip of the varint codec, generalized over the loop state.  The
hypotheses describe the loop invariant: the accumulator holds the low
`7 * idx` bits already decoded and the value still fits in the remaining
64-bit budget. -/
theorem pckReadUInt64Loop_write (v : Nat) : ∀ (idx acc : Nat) (rest : List Nat),
    acc < 2 ^ (7 * idx) → acc + v * 2 ^ (7 * idx) < 2 ^ 64 →
    pckReadUInt64Loop idx acc (pckWriteUInt64Internal v ++ rest) =
      some (acc + v * 2 ^ (7 * idx), rest) := by
  induction v using Nat.strong_induction_on with
  | _ v ih =>
    intro idx acc rest hacc hbound
    rw [pckWriteUInt64Internal]
    by_cases hv : v < 0x80
    · simp only [hv, dif_pos, List.cons_append, List.nil_append]
      rw [pckReadUInt64Loop]
      have hvand : v &&& 0x7f = v := by
        have h7 : v &&& 0x7f = v % 2 ^ 7 := and_mask_mod v 7
        rw [h7]
        omega
      have hshift : (v <<< (7 * idx)) % 2 ^ 64 = v * 2 ^ (7 * idx) := by
        rw [Nat.shiftLeft_eq, Nat.mod_eq_of_lt (by omega)]
      have hor : acc ||| v * 2 ^ (7 * idx) = acc + v * 2 ^ (7 * idx) := by
        rw [Nat.lor_comm, Nat.mul_comm v (2 ^ (7 * idx)), ← Nat.mul_add_lt_is_or hacc v]
        ring
      simp only [hvand, hshift, hor, if_pos hv]
    · simp only [hv, dif_neg, not_false_iff, List.cons_append]
      rw [pckReadUInt64Loop]
      have hb7 : (v % 256 ||| 0x80) &&& 0x7f = v % 128 := varint_head_low v
      have hidx7 : 7 * idx + 7 ≤ 64 := by
        by_contra hcon
        push_neg at hcon
        have h1 : (2 : Nat) ^ 64 ≤ 2 ^ (7 * idx + 7) := Nat.pow_le_pow_right (by norm_num) (by omega)
        have h2 : (2 : Nat) ^ (7 * idx + 7) = 128 * 2 ^ (7 * idx) := by
          rw [Nat.pow_add]
          ring
        have h3 : 128 * 2 ^ (7 * idx) ≤ v * 2 ^ (7 * idx) := mul_le_mul_right' (by omega) _
        omega
      have hmod : v % 128 * 2 ^ (7 * idx) < 2 ^ 64 := by
        have hm : v % 128 * 2 ^ (7 * idx) < 128 * 2 ^ (7 * idx) :=
          mul_lt_mul_of_pos_right (Nat.mod_lt _ (by norm_num)) (pow_pos (by norm_num) _)
        have he : (128 : Nat) * 2 ^ (7 * idx) = 2 ^ (7 * idx + 7) := by
          rw [Nat.pow_add]
          ring
        have hle : (2 : Nat) ^ (7 * idx + 7) ≤ 2 ^ 64 := Nat.pow_le_pow_right (by norm_num) hidx7
        omega
      have hshift : ((v % 128) <<< (7 * idx)) % 2 ^ 64 = v % 128 * 2 ^ (7 * idx) := by
        rw [Nat.shiftLeft_eq, Nat.mod_eq_of_lt hmod]
      have hor : acc ||| v % 128 * 2 ^ (7 * idx) = acc + v % 128 * 2 ^ (7 * idx) := by
        rw [Nat.lor_comm, Nat.mul_comm (v % 128) (2 ^ (7 * idx)),
          ← Nat.mul_add_lt_is_or hacc (v % 128)]
        ring
      have hge : ¬ (v % 256 ||| 0x80) < 0x80 := by
        have := varint_head_ge v
        omega
      simp only [hb7, hshift, hor, if_neg hge]
      have hidx9 : 7 * idx + 7 < 64 := by
        by_contra hcon
        push_neg at hcon
        have he : 7 * idx + 7 = 64 := by omega
        have h2 : (2 : Nat) ^ 64 = 128 * 2 ^ (7 * idx) := by
          rw [← he, Nat.pow_add]
          ring
        have h3 : 128 * 2 ^ (7 * idx) ≤ v * 2 ^ (7 * idx) := mul_le_mul_right' (by omega) _
        omega
      have hlt10 : idx + 1 < 10 := by omega
      simp only [if_pos hlt10]
      have hrec := ih (v >>> 7) (by
        rw [Nat.shiftRight_eq_div_pow]
        exact Nat.div_lt_self (by omega) (by norm_num)) (idx + 1)
        (acc + v % 128 * 2 ^ (7 * idx)) rest
      have hpow : (2 : Nat) ^ (7 * (idx + 1)) = 128 * 2 ^ (7 * idx) := by
        rw [show 7 * (idx + 1) = 7 * idx + 7 by ring, Nat.pow_add]
        ring
      have hacc1 : acc + v % 128 * 2 ^ (7 * idx) < 2 ^ (7 * (idx + 1)) := by
        have hstep : v % 128 * 2 ^ (7 * idx) + 2 ^ (7 * idx) ≤ 128 * 2 ^ (7 * idx) := by
          have h1 : (v % 128 + 1) * 2 ^ (7 * idx) ≤ 128 * 2 ^ (7 * idx) :=
            mul_le_mul_right' (by omega) _
          calc v % 128 * 2 ^ (7 * idx) + 2 ^ (7 * idx)
              = (v % 128 + 1) * 2 ^ (7 * idx) := by ring
            _ ≤ 128 * 2 ^ (7 * idx) := h1
        omega
      have hval : acc + v % 128 * 2 ^ (7 * idx) + v >>> 7 * 2 ^ (7 * (idx + 1)) =
          acc + v * 2 ^ (7 * idx) := by
        rw [Nat.shiftRight_eq_div_pow, show (2 : Nat) ^ 7 = 128 by norm_num, hpow]
        have hsplit : 128 * (v / 128) + v % 128 = v := Nat.div_add_mod v 128
        calc acc + v % 128 * 2 ^ (7 * idx) + v / 128 * (128 * 2 ^ (7 * idx))
            = acc + (128 * (v / 128) + v % 128) * 2 ^ (7 * idx) := by ring
          _ = acc + v * 2 ^ (7 * idx) := by rw [hsplit]
      rw [hrec hacc1 (by rw [hval]; exact hbound), hval]

/-- Round trip of the varint codec for any 64-bit value. -/
theorem pckReadUInt64Internal_write (v : Nat) (rest : List Nat) (h : v < 2 ^ 64) :
    pckReadUInt64Internal (pckWriteUInt64Internal v ++ rest) = some (v, rest) := by
  have := pckReadUInt64Loop_write v 0 0 rest (by norm_num) (by simpa using h)
  simpa [pckReadUInt64Internal] using this

/-- UINT_MAX: the sentinel stored in tagNextId when a container end (zero
byte) is read. -/
def uintMax : Nat := 4294967295

/-- pckWriteTag after the field ID delta has been computed
(tagId = id - idLast - 1 in the source).  Produces the tag byte, then the
high bits of the ID delta as a varint when they are nonzero, then the high
bits of the value as a varint when they are nonzero. -/
def pckWriteTagDelta (type : PackType) (tagId0 value0 : Nat) : List Nat :=
  if type.valueMultiBit then
    if value0 < 2 then
      let tag := type.code <<< 4
      let tag := tag ||| ((value0 &&& 0x1) <<< 2)
      let value := value0 >>> 1
      let tag := tag ||| (tagId0 &&& 0x1)
      let tagId := tagId0 >>> 1
      let tag := if 0 < tagId then tag ||| 0x2 else tag
      [tag] ++ (if 0 < tagId then pckWriteUInt64Internal tagId else [])
        ++ (if 0 < value then pckWriteUInt64Internal value else [])
    else
      let tag := type.code <<< 4
      let tag := tag ||| 0x8
      let tag := tag ||| (tagId0 &&& 0x3)
      let tagId := tagId0 >>> 2
      let tag := if 0 < tagId then tag ||| 0x4 else tag
      [tag] ++ (if 0 < tagId then pckWriteUInt64Internal tagId else [])
        ++ (if 0 < value0 then pckWriteUInt64Internal value0 else [])
  else if type.valueSingleBit then
    let tag := type.code <<< 4
    let tag := tag ||| ((value0 &&& 0x1) <<< 3)
    let value := value0 >>> 1
    let tag := tag ||| (tagId0 &&& 0x3)
    let tagId := tagId0 >>> 2
    let tag := if 0 < tagId then tag ||| 0x4 else tag
    [tag] ++ (if 0 < tagId then pckWriteUInt64Internal tagId else [])
      ++ (if 0 < value then pckWriteUInt64Internal value else [])
  else
    let tag := type.code <<< 4
    let tag := tag ||| (tagId0 &&& 0x7)
    let tagId := tagId0 >>> 3
    let tag := if 0 < tagId then tag ||| 0x8 else tag
    [tag] ++ (if 0 < tagId then pckWriteUInt64Internal tagId else [])
      ++ (if 0 < value0 then pckWriteUInt64Internal value0 else [])

/-- pckWriteTag with an explicit id: the source checks CHECK(id > idLast)
and computes the delta; the check becomes a hypothesis of the round-trip
theorems. -/
def pckWriteTag (type : PackType) (idLast id value : Nat) : List Nat :=
  pckWriteTagDelta type (id - idLast - 1) value

/-- The decoded form of a tag: tagNextId / tagNextType / tagNextValue. -/
structure PTag where
  id : Nat
  type : PackType
  value : Nat
deriving DecidableEq, Repr

/-- Reader state: idLast of the current container, the pending decoded tag
(tagNextId = 0 in the source corresponds to pending = none) and the bytes
not yet consumed. -/
structure RState where
  idLast : Nat
  pending : Option PTag
  bytes : List Nat
deriving DecidableEq, Repr

/-- Helper for the repeated source pattern
`if (tag & flag) tagNextId |= (unsigned int)pckReadUInt64Internal(this) << shift`.
The (unsigned int) cast truncates to 32 bits and the shift is performed on
unsigned int, wrapping modulo 2^32. -/
def pckReadIdHigh (lowBits shift : Nat) (cond : Bool) (bytes : List Nat) :
    Option (Nat × List Nat) :=
  if cond then
    (pckReadUInt64Internal bytes).map fun r =>
      (lowBits ||| (((r.1 % 2 ^ 32) <<< shift) % 2 ^ 32), r.2)
  else some (lowBits, bytes)

/-- pckReadTagNext: decode one tag from the byte stream into the pending
slot.  A zero byte is a container end and sets tagNextId = UINT_MAX. -/
def pckReadTagNextM (s : RState) : Option RState :=
  match s.bytes with
  | [] => none
  | tag :: rest =>
    if tag = 0 then
      some { s with pending := some ⟨uintMax, PackType.unknown, 0⟩, bytes := rest }
    else
      (PackType.ofCode (tag >>> 4)).bind fun ty =>
        if ty.valueMultiBit then
          if tag &&& 0x8 ≠ 0 then
            (pckReadIdHigh (tag &&& 0x3) 2 (tag &&& 0x4 != 0) rest).bind fun r1 =>
              (pckReadUInt64Internal r1.2).bind fun r2 =>
                some { s with pending := some ⟨r1.1 + s.idLast + 1, ty, r2.1⟩, bytes := r2.2 }
          else
            (pckReadIdHigh (tag &&& 0x1) 1 (tag &&& 0x2 != 0) rest).bind fun r1 =>
              some { s with
                pending := some ⟨r1.1 + s.idLast + 1, ty, (tag >>> 2) &&& 0x3⟩, bytes := r1.2 }
        else if ty.valueSingleBit then
          (pckReadIdHigh (tag &&& 0x3) 2 (tag &&& 0x4 != 0) rest).bind fun r1 =>
            some { s with
              pending := some ⟨r1.1 + s.idLast + 1, ty, (tag >>> 3) &&& 0x1⟩, bytes := r1.2 }
        else
          (pckReadIdHigh (tag &&& 0x7) 3 (tag &&& 0x8 != 0) rest).bind fun r1 =>
            some { s with pending := some ⟨r1.1 + s.idLast + 1, ty, 0⟩, bytes := r1.2 }

theorem and_one_mod (x : Nat) : x &&& 1 = x % 2 := Nat.and_one_is_mod x

theorem and_three_mod (x : Nat) : x &&& 3 = x % 4 := by
  have h := and_mask_mod x 2
  norm_num at h
  exact h

theorem and_seven_mod (x : Nat) : x &&& 7 = x % 8 := by
  have h := and_mask_mod x 3
  norm_num at h
  exact h

/-- Reconstruction of the field ID delta from its low tag bits and the
varint that carries the high bits, including the (unsigned int) cast. -/
theorem id_delta_reconstruct (delta k : Nat) (h : delta < 2 ^ 32) :
    delta % 2 ^ k ||| ((delta >>> k % 2 ^ 32) <<< k) % 2 ^ 32 = delta := by
  have hhi : delta >>> k = delta / 2 ^ k := Nat.shiftRight_eq_div_pow delta k
  have hle : delta / 2 ^ k ≤ delta := Nat.div_le_self _ _
  have h1 : delta >>> k % 2 ^ 32 = delta / 2 ^ k := by
    rw [hhi, Nat.mod_eq_of_lt (by omega)]
  have h3 : delta / 2 ^ k * 2 ^ k ≤ delta := Nat.div_mul_le_self _ _
  have h4 : ((delta / 2 ^ k) <<< k) % 2 ^ 32 = (delta / 2 ^ k) <<< k := by
    rw [Nat.shiftLeft_eq]
    exact Nat.mod_eq_of_lt (by omega)
  rw [h1, h4, Nat.lor_comm, or_eq_add (Nat.mod_lt _ (pow_pos (by norm_num) k))]
  calc delta / 2 ^ k * 2 ^ k + delta % 2 ^ k = 2 ^ k * (delta / 2 ^ k) + delta % 2 ^ k := by
        ring
    _ = delta := Nat.div_add_mod delta (2 ^ k)

theorem id_delta_reconstruct1 (delta : Nat) (h : delta < 2 ^ 32) :
    delta % 2 ||| (((delta >>> 1) % 2 ^ 32) <<< 1) % 2 ^ 32 = delta := by
  simpa using id_delta_reconstruct delta 1 h

theorem id_delta_reconstruct2 (delta : Nat) (h : delta < 2 ^ 32) :
    delta % 4 ||| (((delta >>> 2) % 2 ^ 32) <<< 2) % 2 ^ 32 = delta := by
  have := id_delta_reconstruct delta 2 h
  norm_num at this
  exact this

theorem id_delta_reconstruct3 (delta : Nat) (h : delta < 2 ^ 32) :
    delta % 8 ||| (((delta >>> 3) % 2 ^ 32) <<< 3) % 2 ^ 32 = delta := by
  have := id_delta_reconstruct delta 3 h
  norm_num at this
  exact this

set_option maxRecDepth 8000 in
theorem tag_ms_ne0 : ∀ c, c < 12 → 1 ≤ c → ∀ v, v < 2 → ∀ d, d < 2 → ∀ b : Bool,
    ¬((c <<< 4 ||| v <<< 2) ||| d) ||| (if b then 2 else 0) = 0 := by decide

set_option maxRecDepth 8000 in
theorem tag_ms_code : ∀ c, c < 12 → ∀ v, v < 2 → ∀ d, d < 2 → ∀ b : Bool,
    (((c <<< 4 ||| v <<< 2) ||| d) ||| (if b then 2 else 0)) >>> 4 = c := by decide

set_option maxRecDepth 8000 in
theorem tag_ms_bit8 : ∀ c, c < 12 → ∀ v, v < 2 → ∀ d, d < 2 → ∀ b : Bool,
    (((c <<< 4 ||| v <<< 2) ||| d) ||| (if b then 2 else 0)) &&& 8 = 0 := by decide

set_option maxRecDepth 8000 in
theorem tag_ms_idLow : ∀ c, c < 12 → ∀ v, v < 2 → ∀ d, d < 2 → ∀ b : Bool,
    (((c <<< 4 ||| v <<< 2) ||| d) ||| (if b then 2 else 0)) &&& 1 = d := by decide

set_option maxRecDepth 8000 in
theorem tag_ms_idFlag : ∀ c, c < 12 → ∀ v, v < 2 → ∀ d, d < 2 → ∀ b : Bool,
    (((((c <<< 4 ||| v <<< 2) ||| d) ||| (if b then 2 else 0)) &&& 2) != 0) = b := by decide

set_option maxRecDepth 8000 in
theorem tag_ms_value : ∀ c, c < 12 → ∀ v, v < 2 → ∀ d, d < 2 → ∀ b : Bool,
    ((((c <<< 4 ||| v <<< 2) ||| d) ||| (if b then 2 else 0)) >>> 2) &&& 3 = v := by decide

set_option maxRecDepth 8000 in
theorem tag_mb_ne0 : ∀ c, c < 12 → ∀ d, d < 4 → ∀ b : Bool,
    ¬((c <<< 4 ||| 8) ||| d) ||| (if b then 4 else 0) = 0 := by decide

set_option maxRecDepth 8000 in
theorem tag_mb_code : ∀ c, c < 12 → ∀ d, d < 4 → ∀ b : Bool,
    (((c <<< 4 ||| 8) ||| d) ||| (if b then 4 else 0)) >>> 4 = c := by decide

set_option maxRecDepth 8000 in
theorem tag_mb_bit8 : ∀ c, c < 12 → ∀ d, d < 4 → ∀ b : Bool,
    ¬(((c <<< 4 ||| 8) ||| d) ||| (if b then 4 else 0)) &&& 8 = 0 := by decide

set_option maxRecDepth 8000 in
theorem tag_mb_idLow : ∀ c, c < 12 → ∀ d, d < 4 → ∀ b : Bool,
    (((c <<< 4 ||| 8) ||| d) ||| (if b then 4 else 0)) &&& 3 = d := by decide

set_option maxRecDepth 8000 in
theorem tag_mb_idFlag : ∀ c, c < 12 → ∀ d, d < 4 → ∀ b : Bool,
    (((((c <<< 4 ||| 8) ||| d) ||| (if b then 4 else 0)) &&& 4) != 0) = b := by decide

set_option maxRecDepth 8000 in
theorem tag_sb_ne0 : ∀ c, c < 12 → 1 ≤ c → ∀ v, v < 2 → ∀ d, d < 4 → ∀ b : Bool,
    ¬((c <<< 4 ||| v <<< 3) ||| d) ||| (if b then 4 else 0) = 0 := by decide

set_option maxRecDepth 8000 in
theorem tag_sb_code : ∀ c, c < 12 → ∀ v, v < 2 → ∀ d, d < 4 → ∀ b : Bool,
    (((c <<< 4 ||| v <<< 3) ||| d) ||| (if b then 4 else 0)) >>> 4 = c := by decide

set_option maxRecDepth 8000 in
theorem tag_sb_idLow : ∀ c, c < 12 → ∀ v, v < 2 → ∀ d, d < 4 → ∀ b : Bool,
    (((c <<< 4 ||| v <<< 3) ||| d) ||| (if b then 4 else 0)) &&& 3 = d := by decide

set_option maxRecDepth 8000 in
theorem tag_sb_idFlag : ∀ c, c < 12 → ∀ v, v < 2 → ∀ d, d < 4 → ∀ b : Bool,
    (((((c <<< 4 ||| v <<< 3) ||| d) ||| (if b then 4 else 0)) &&& 4) != 0) = b := by decide

set_option maxRecDepth 8000 in
theorem tag_sb_value : ∀ c, c < 12 → ∀ v, v < 2 → ∀ d, d < 4 → ∀ b : Bool,
    ((((c <<< 4 ||| v <<< 3) ||| d) ||| (if b then 4 else 0)) >>> 3) &&& 1 = v := by decide

set_option maxRecDepth 8000 in
theorem tag_ct_ne0 : ∀ c, c < 12 → 1 ≤ c → ∀ d, d < 8 → ∀ b : Bool,
    ¬(c <<< 4 ||| d) ||| (if b then 8 else 0) = 0 := by decide

set_option maxRecDepth 8000 in
theorem tag_ct_code : ∀ c, c < 12 → ∀ d, d < 8 → ∀ b : Bool,
    ((c <<< 4 ||| d) ||| (if b then 8 else 0)) >>> 4 = c := by decide

set_option maxRecDepth 8000 in
theorem tag_ct_idLow : ∀ c, c < 12 → ∀ d, d < 8 → ∀ b : Bool,
    ((c <<< 4 ||| d) ||| (if b then 8 else 0)) &&& 7 = d := by decide

set_option maxRecDepth 8000 in
theorem tag_ct_idFlag : ∀ c, c < 12 → ∀ d, d < 8 → ∀ b : Bool,
    ((((c <<< 4 ||| d) ||| (if b then 8 else 0)) &&& 8) != 0) = b := by decide

theorem shiftRight_le (x k : Nat) : x >>> k ≤ x := by
  rw [Nat.shiftRight_eq_div_pow]
  exact Nat.div_le_self _ _

theorem shiftRight_one_eq_zero {x : Nat} (h : x < 2) : x >>> 1 = 0 := by
  rw [Nat.shiftRight_eq_div_pow]
  norm_num
  omega

/-- Normalized form of pckWriteTagDelta in the multi-bit branch with a
value small enough to pack into the tag (value < 2). -/
theorem pckWriteTagDelta_ms (ty : PackType) (hty : ty.valueMultiBit = true)
    (delta value : Nat) (hv : value < 2) :
    pckWriteTagDelta ty delta value =
      (((ty.code <<< 4 ||| value <<< 2) ||| delta % 2) |||
          (if 0 < delta >>> 1 then 2 else 0)) ::
        (if 0 < delta >>> 1 then pckWriteUInt64Internal (delta >>> 1) else []) := by
  have hvand : value &&& 1 = value := by
    rw [and_one_mod]
    omega
  have hv1 : ¬ 0 < value >>> 1 := by
    rw [shiftRight_one_eq_zero hv]
    omega
  rw [pckWriteTagDelta]
  simp only [hty, if_true, eq_true hv, eq_false hv1, if_false, hvand, and_one_mod,
    List.append_nil]
  by_cases hhi : 0 < delta >>> 1
  · simp [eq_true hhi, if_true]
  · simp [eq_false hhi, if_false]

/-- Decoding the tag written by the multi-bit small-value branch. -/
theorem tagRead_ms (ty : PackType) (hty : ty.valueMultiBit = true) (hne : ty ≠ .unknown)
    (k delta value : Nat) (rest : List Nat) (hd : delta < 2 ^ 32) (hv : value < 2) :
    pckReadTagNextM ⟨k, none, pckWriteTagDelta ty delta value ++ rest⟩ =
      some ⟨k, some ⟨delta + k + 1, ty, value⟩, rest⟩ := by
  have hcode := PackType.code_lt ty
  have hcpos := PackType.code_pos ty hne
  have hdm : delta % 2 < 2 := Nat.mod_lt _ (by norm_num)
  rw [pckWriteTagDelta_ms ty hty delta value hv]
  by_cases hhi : 0 < delta >>> 1
  · simp only [eq_true hhi, if_true, List.cons_append]
    rw [pckReadTagNextM]
    have h0 := tag_ms_ne0 ty.code hcode hcpos value hv (delta % 2) hdm true
    have h4 := tag_ms_code ty.code hcode value hv (delta % 2) hdm true
    have h8 := tag_ms_bit8 ty.code hcode value hv (delta % 2) hdm true
    have hlo := tag_ms_idLow ty.code hcode value hv (delta % 2) hdm true
    have hfl := tag_ms_idFlag ty.code hcode value hv (delta % 2) hdm true
    have hvv := tag_ms_value ty.code hcode value hv (delta % 2) hdm true
    simp only [if_true] at h0 h4 h8 hlo hfl hvv
    simp only [if_neg h0, h4, PackType.ofCode_code, Option.some_bind, hty, if_true, h8,
      ne_eq, not_true_eq_false, if_false, hlo, hfl, not_false_eq_true]
    rw [pckReadIdHigh]
    simp only [if_true]
    rw [pckReadUInt64Internal_write (delta >>> 1) rest
      (lt_of_le_of_lt (shiftRight_le delta 1) (by omega))]
    simp only [Option.map_some', Option.some_bind, id_delta_reconstruct1 delta hd, hvv]
  · simp only [eq_false hhi, if_false, List.nil_append, List.cons_append]
    rw [pckReadTagNextM]
    have h0 := tag_ms_ne0 ty.code hcode hcpos value hv (delta % 2) hdm false
    have h4 := tag_ms_code ty.code hcode value hv (delta % 2) hdm false
    have h8 := tag_ms_bit8 ty.code hcode value hv (delta % 2) hdm false
    have hlo := tag_ms_idLow ty.code hcode value hv (delta % 2) hdm false
    have hfl := tag_ms_idFlag ty.code hcode value hv (delta % 2) hdm false
    have hvv := tag_ms_value ty.code hcode value hv (delta % 2) hdm false
    simp only [if_false, Bool.false_eq_true] at h0 h4 h8 hlo hfl hvv
    have hdsmall : delta < 2 := by
      have := shiftRight_le delta 1
      rw [Nat.shiftRight_eq_div_pow] at hhi
      norm_num at hhi
      omega
    have hdd : delta % 2 = delta := Nat.mod_eq_of_lt hdsmall
    simp only [if_neg h0, h4, PackType.ofCode_code, Option.some_bind, hty, if_true, h8,
      ne_eq, not_true_eq_false, if_false, hlo, hfl, not_false_eq_true]
    rw [pckReadIdHigh]
    simp only [Bool.false_eq_true, if_false, Option.some_bind, hvv]
    simp only [hdd]

/-- Normalized form of pckWriteTagDelta in the multi-bit branch with a
value that must follow the tag (value >= 2). -/
theorem pckWriteTagDelta_mb (ty : PackType) (hty : ty.valueMultiBit = true)
    (delta value : Nat) (hv : 2 ≤ value) :
    pckWriteTagDelta ty delta value =
      (((ty.code <<< 4 ||| 8) ||| delta % 4) ||| (if 0 < delta >>> 2 then 4 else 0)) ::
        ((if 0 < delta >>> 2 then pckWriteUInt64Internal (delta >>> 2) else []) ++
          pckWriteUInt64Internal value) := by
  rw [pckWriteTagDelta]
  simp only [hty, if_true, eq_false (by omega : ¬ value < 2), if_false, and_three_mod,
    eq_true (by omega : 0 < value)]
  by_cases hhi : 0 < delta >>> 2
  · simp [eq_true hhi]
  · simp [eq_false hhi]

/-- Decoding the tag written by the multi-bit large-value branch. -/
theorem tagRead_mb (ty : PackType) (hty : ty.valueMultiBit = true) (hne : ty ≠ .unknown)
    (k delta value : Nat) (rest : List Nat) (hd : delta < 2 ^ 32) (hv2 : 2 ≤ value)
    (hv64 : value < 2 ^ 64) :
    pckReadTagNextM ⟨k, none, pckWriteTagDelta ty delta value ++ rest⟩ =
      some ⟨k, some ⟨delta + k + 1, ty, value⟩, rest⟩ := by
  have hcode := PackType.code_lt ty
  have hcpos := PackType.code_pos ty hne
  have hdm : delta % 4 < 4 := Nat.mod_lt _ (by norm_num)
  rw [pckWriteTagDelta_mb ty hty delta value hv2]
  by_cases hhi : 0 < delta >>> 2
  · simp only [eq_true hhi, if_true, List.cons_append, List.append_assoc]
    rw [pckReadTagNextM]
    have h0 := tag_mb_ne0 ty.code hcode (delta % 4) hdm true
    have h4 := tag_mb_code ty.code hcode (delta % 4) hdm true
    have h8 := tag_mb_bit8 ty.code hcode (delta % 4) hdm true
    have hlo := tag_mb_idLow ty.code hcode (delta % 4) hdm true
    have hfl := tag_mb_idFlag ty.code hcode (delta % 4) hdm true
    simp only [if_true] at h0 h4 h8 hlo hfl
    simp only [if_neg h0, h4, PackType.ofCode_code, Option.some_bind, hty, if_true,
      ne_eq, if_pos h8, hlo, hfl]
    rw [pckReadIdHigh]
    simp only [if_true]
    rw [pckReadUInt64Internal_write (delta >>> 2)
      (pckWriteUInt64Internal value ++ rest)
      (lt_of_le_of_lt (shiftRight_le delta 2) (by omega))]
    simp only [Option.map_some', Option.some_bind, id_delta_reconstruct2 delta hd]
    rw [pckReadUInt64Internal_write value rest hv64]
    rfl
  · simp only [eq_false hhi, if_false, List.nil_append, List.cons_append]
    rw [pckReadTagNextM]
    have h0 := tag_mb_ne0 ty.code hcode (delta % 4) hdm false
    have h4 := tag_mb_code ty.code hcode (delta % 4) hdm false
    have h8 := tag_mb_bit8 ty.code hcode (delta % 4) hdm false
    have hlo := tag_mb_idLow ty.code hcode (delta % 4) hdm false
    have hfl := tag_mb_idFlag ty.code hcode (delta % 4) hdm false
    simp only [if_false, Bool.false_eq_true] at h0 h4 h8 hlo hfl
    have hdsmall : delta < 4 := by
      rw [Nat.shiftRight_eq_div_pow] at hhi
      norm_num at hhi
      omega
    have hdd : delta % 4 = delta := Nat.mod_eq_of_lt hdsmall
    simp only [if_neg h0, h4, PackType.ofCode_code, Option.some_bind, hty, if_true,
      ne_eq, if_pos h8, hlo, hfl]
    rw [pckReadIdHigh]
    simp only [Bool.false_eq_true, if_false, Option.some_bind]
    rw [pckReadUInt64Internal_write value rest hv64]
    simp only [Option.some_bind]
    simp only [hdd]

/-- Normalized form of pckWriteTagDelta in the single-bit branch
(bool, str, bin), whose value is always 0 or 1. -/
theorem pckWriteTagDelta_sb (ty : PackType) (htm : ty.valueMultiBit = false)
    (hts : ty.valueSingleBit = true) (delta value : Nat) (hv : value < 2) :
    pckWriteTagDelta ty delta value =
      (((ty.code <<< 4 ||| value <<< 3) ||| delta % 4) |||
          (if 0 < delta >>> 2 then 4 else 0)) ::
        (if 0 < delta >>> 2 then pckWriteUInt64Internal (delta >>> 2) else []) := by
  have hvand : value &&& 1 = value := by
    rw [and_one_mod]
    omega
  have hv1 : ¬ 0 < value >>> 1 := by
    rw [shiftRight_one_eq_zero hv]
    omega
  rw [pckWriteTagDelta]
  simp only [htm, Bool.false_eq_true, if_false, hts, if_true, eq_false hv1, hvand,
    and_three_mod, List.append_nil]
  by_cases hhi : 0 < delta >>> 2
  · simp [eq_true hhi]
  · simp [eq_false hhi]

/-- Decoding the tag written by the single-bit branch. -/
theorem tagRead_sb (ty : PackType) (htm : ty.valueMultiBit = false)
    (hts : ty.valueSingleBit = true) (hne : ty ≠ .unknown)
    (k delta value : Nat) (rest : List Nat) (hd : delta < 2 ^ 32) (hv : value < 2) :
    pckReadTagNextM ⟨k, none, pckWriteTagDelta ty delta value ++ rest⟩ =
      some ⟨k, some ⟨delta + k + 1, ty, value⟩, rest⟩ := by
  have hcode := PackType.code_lt ty
  have hcpos := PackType.code_pos ty hne
  have hdm : delta % 4 < 4 := Nat.mod_lt _ (by norm_num)
  rw [pckWriteTagDelta_sb ty htm hts delta value hv]
  by_cases hhi : 0 < delta >>> 2
  · simp only [eq_true hhi, if_true, List.cons_append]
    rw [pckReadTagNextM]
    have h0 := tag_sb_ne0 ty.code hcode hcpos value hv (delta % 4) hdm true
    have h4 := tag_sb_code ty.code hcode value hv (delta % 4) hdm true
    have hlo := tag_sb_idLow ty.code hcode value hv (delta % 4) hdm true
    have hfl := tag_sb_idFlag ty.code hcode value hv (delta % 4) hdm true
    have hvv := tag_sb_value ty.code hcode value hv (delta % 4) hdm true
    simp only [if_true] at h0 h4 hlo hfl hvv
    simp only [if_neg h0, h4, PackType.ofCode_code, Option.some_bind, htm,
      Bool.false_eq_true, if_false, hts, if_true, hlo, hfl, hvv]
    rw [pckReadIdHigh]
    simp only [if_true]
    rw [pckReadUInt64Internal_write (delta >>> 2) rest
      (lt_of_le_of_lt (shiftRight_le delta 2) (by omega))]
    simp only [Option.map_some', Option.some_bind, id_delta_reconstruct2 delta hd]
  · simp only [eq_false hhi, if_false, List.nil_append, List.cons_append]
    rw [pckReadTagNextM]
    have h0 := tag_sb_ne0 ty.code hcode hcpos value hv (delta % 4) hdm false
    have h4 := tag_sb_code ty.code hcode value hv (delta % 4) hdm false
    have hlo := tag_sb_idLow ty.code hcode value hv (delta % 4) hdm false
    have hfl := tag_sb_idFlag ty.code hcode value hv (delta % 4) hdm false
    have hvv := tag_sb_value ty.code hcode value hv (delta % 4) hdm false
    simp only [if_false, Bool.false_eq_true] at h0 h4 hlo hfl hvv
    have hdsmall : delta < 4 := by
      rw [Nat.shiftRight_eq_div_pow] at hhi
      norm_num at hhi
      omega
    have hdd : delta % 4 = delta := Nat.mod_eq_of_lt hdsmall
    simp only [if_neg h0, h4, PackType.ofCode_code, Option.some_bind, htm,
      Bool.false_eq_true, if_false, hts, if_true, hlo, hfl, hvv]
    rw [pckReadIdHigh]
    simp only [Bool.false_eq_true, if_false, Option.some_bind]
    simp only [hdd]

/-- Normalized form of pckWriteTagDelta for container types (array, obj):
only the ID delta is packed and the value must be 0 (source ASSERT). -/
theorem pckWriteTagDelta_ct (ty : PackType) (htm : ty.valueMultiBit = false)
    (hts : ty.valueSingleBit = false) (delta : Nat) :
    pckWriteTagDelta ty delta 0 =
      ((ty.code <<< 4 ||| delta % 8) ||| (if 0 < delta >>> 3 then 8 else 0)) ::
        (if 0 < delta >>> 3 then pckWriteUInt64Internal (delta >>> 3) else []) := by
  rw [pckWriteTagDelta]
  simp only [htm, hts, Bool.false_eq_true, if_false, and_seven_mod, List.append_nil,
    Nat.lt_irrefl]
  by_cases hhi : 0 < delta >>> 3
  · simp [eq_true hhi]
  · simp [eq_false hhi]

/-- Decoding the tag written for a container type. -/
theorem tagRead_ct (ty : PackType) (htm : ty.valueMultiBit = false)
    (hts : ty.valueSingleBit = false) (hne : ty ≠ .unknown)
    (k delta : Nat) (rest : List Nat) (hd : delta < 2 ^ 32) :
    pckReadTagNextM ⟨k, none, pckWriteTagDelta ty delta 0 ++ rest⟩ =
      some ⟨k, some ⟨delta + k + 1, ty, 0⟩, rest⟩ := by
  have hcode := PackType.code_lt ty
  have hcpos := PackType.code_pos ty hne
  have hdm : delta % 8 < 8 := Nat.mod_lt _ (by norm_num)
  rw [pckWriteTagDelta_ct ty htm hts delta]
  by_cases hhi : 0 < delta >>> 3
  · simp only [eq_true hhi, if_true, List.cons_append]
    rw [pckReadTagNextM]
    have h0 := tag_ct_ne0 ty.code hcode hcpos (delta % 8) hdm true
    have h4 := tag_ct_code ty.code hcode (delta % 8) hdm true
    have hlo := tag_ct_idLow ty.code hcode (delta % 8) hdm true
    have hfl := tag_ct_idFlag ty.code hcode (delta % 8) hdm true
    simp only [if_true] at h0 h4 hlo hfl
    simp only [if_neg h0, h4, PackType.ofCode_code, Option.some_bind, htm, hts,
      Bool.false_eq_true, if_false, hlo, hfl]
    rw [pckReadIdHigh]
    simp only [if_true]
    rw [pckReadUInt64Internal_write (delta >>> 3) rest
      (lt_of_le_of_lt (shiftRight_le delta 3) (by omega))]
    simp only [Option.map_some', Option.some_bind, id_delta_reconstruct3 delta hd]
  · simp only [eq_false hhi, if_false, List.nil_append, List.cons_append]
    rw [pckReadTagNextM]
    have h0 := tag_ct_ne0 ty.code hcode hcpos (delta % 8) hdm false
    have h4 := tag_ct_code ty.code hcode (delta % 8) hdm false
    have hlo := tag_ct_idLow ty.code hcode (delta % 8) hdm false
    have hfl := tag_ct_idFlag ty.code hcode (delta % 8) hdm false
    simp only [if_false, Bool.false_eq_true] at h0 h4 hlo hfl
    have hdsmall : delta < 8 := by
      rw [Nat.shiftRight_eq_div_pow] at hhi
      norm_num at hhi
      omega
    have hdd : delta % 8 = delta := Nat.mod_eq_of_lt hdsmall
    simp only [if_neg h0, h4, PackType.ofCode_code, Option.some_bind, htm, hts,
      Bool.false_eq_true, if_false, hlo, hfl]
    rw [pckReadIdHigh]
    simp only [Bool.false_eq_true, if_false, Option.some_bind]
    simp only [hdd]

end Pack

namespace Pack

/-- pckReadTag: search for the requested id.  One fuel unit per loop
iteration; each skipping iteration consumes at least the tag byte, so
bytes.length + 1 fuel always suffices (the wrapper supplies it).
On a match with peek = false the type is checked and idLast advances; on
`id < tagNextId` the field is missing and the pending tag is kept. -/
def pckReadTagLoopM : Nat → RState → Nat → PackType → Bool → Option (PTag × RState)
  | 0, _, _, _, _ => none
  | fuel + 1, s, id, ty, peek =>
    (if s.pending.isNone then pckReadTagNextM s else some s).bind fun s1 =>
      match s1.pending with
      | none => none
      | some t =>
        if id < t.id then some (t, s1)
        else if id = t.id then
          if peek then some (t, s1)
          else if t.type = ty then some (t, { s1 with idLast := id, pending := none })
          else none
        else
          if t.type.hasSize && t.value != 0 then
            (pckReadUInt64Internal s1.bytes).bind fun r =>
              if r.1 ≤ r.2.length then
                pckReadTagLoopM fuel { idLast := t.id, pending := none, bytes := r.2.drop r.1 }
                  id ty peek
              else none
          else pckReadTagLoopM fuel { idLast := t.id, pending := none, bytes := s1.bytes }
            id ty peek

/-- pckReadTag including the id preconditions: id 0 means one past idLast,
and an id at or below idLast raises "field already read".  Returns the
resolved id, the tag that ended the search, and the new state. -/
def pckReadTagM (s : RState) (id0 : Nat) (ty : PackType) (peek : Bool) :
    Option (Nat × PTag × RState) :=
  if id0 = 0 then
    (pckReadTagLoopM (s.bytes.length + 1) s (s.idLast + 1) ty peek).map fun r =>
      (s.idLast + 1, r.1, r.2)
  else if id0 ≤ s.idLast then none
  else (pckReadTagLoopM (s.bytes.length + 1) s id0 ty peek).map fun r => (id0, r.1, r.2)

/-- pckReadNullInternal: peek at the requested id; when the decoded tag id
is larger the field is NULL, and idLast advances to the requested id. -/
def pckReadNullM (s : RState) (id0 : Nat) : Option (Bool × Nat × RState) :=
  (pckReadTagM s id0 PackType.unknown true).bind fun r =>
    if r.1 < r.2.1.id then some (true, r.1, { r.2.2 with idLast := r.1 })
    else some (false, r.1, r.2.2)

/-- pckReadU64: NULL gives the default, otherwise the tag value. -/
def pckReadU64M (s : RState) (id0 : Nat) (dflt : Nat) : Option (Nat × RState) :=
  (pckReadNullM s id0).bind fun r =>
    if r.1 then some (dflt, r.2.2)
    else (pckReadTagM r.2.2 r.2.1 PackType.u64 false).bind fun r2 =>
      some (r2.2.1.value, r2.2.2)

theorem readTagM_pending_lt (s : RState) (t : PTag) (id0 : Nat) (ty : PackType) (peek : Bool)
    (hp : s.pending = some t) (h0 : id0 ≠ 0) (hgt : s.idLast < id0) (hlt : id0 < t.id) :
    pckReadTagM s id0 ty peek = some (id0, t, s) := by
  rw [pckReadTagM, if_neg h0, if_neg (by omega), pckReadTagLoopM]
  simp [hp, hlt]

theorem readTagM_pending_match_peek (s : RState) (t : PTag) (id0 : Nat) (ty : PackType)
    (hp : s.pending = some t) (h0 : id0 ≠ 0) (hgt : s.idLast < id0) (heq : id0 = t.id) :
    pckReadTagM s id0 ty true = some (id0, t, s) := by
  rw [pckReadTagM, if_neg h0, if_neg (by omega), pckReadTagLoopM]
  simp [hp, heq]

theorem readTagM_pending_match (s : RState) (t : PTag) (id0 : Nat) (ty : PackType)
    (hp : s.pending = some t) (h0 : id0 ≠ 0) (hgt : s.idLast < id0) (heq : id0 = t.id)
    (hty : t.type = ty) :
    pckReadTagM s id0 ty false = some (id0, t, { s with idLast := id0, pending := none }) := by
  rw [pckReadTagM, if_neg h0, if_neg (by omega), pckReadTagLoopM]
  simp [hp, heq, hty]

theorem readTagM_decode_lt (s s1 : RState) (t : PTag) (id0 : Nat) (ty : PackType) (peek : Bool)
    (hp : s.pending = none) (hdec : pckReadTagNextM s = some s1) (ht : s1.pending = some t)
    (h0 : id0 ≠ 0) (hgt : s.idLast < id0) (hlt : id0 < t.id) :
    pckReadTagM s id0 ty peek = some (id0, t, s1) := by
  rw [pckReadTagM, if_neg h0, if_neg (by omega), pckReadTagLoopM]
  simp [hp, hdec, ht, hlt]

theorem readTagM_decode_match_peek (s s1 : RState) (t : PTag) (id0 : Nat) (ty : PackType)
    (hp : s.pending = none) (hdec : pckReadTagNextM s = some s1) (ht : s1.pending = some t)
    (h0 : id0 ≠ 0) (hgt : s.idLast < id0) (heq : id0 = t.id) :
    pckReadTagM s id0 ty true = some (id0, t, s1) := by
  rw [pckReadTagM, if_neg h0, if_neg (by omega), pckReadTagLoopM]
  simp [hp, hdec, ht, heq]

theorem readTagM_decode_match (s s1 : RState) (t : PTag) (id0 : Nat) (ty : PackType)
    (hp : s.pending = none) (hdec : pckReadTagNextM s = some s1) (ht : s1.pending = some t)
    (h0 : id0 ≠ 0) (hgt : s.idLast < id0) (heq : id0 = t.id) (hty : t.type = ty) :
    pckReadTagM s id0 ty false = some (id0, t, { s1 with idLast := id0, pending := none }) := by
  rw [pckReadTagM, if_neg h0, if_neg (by omega), pckReadTagLoopM]
  simp [hp, hdec, ht, heq, hty]

end Pack

namespace Pack

/-- Modelled from the spec: cvtInt64ToZigZag (common/type/convert.c is not
under src/).  "Signed integers use zig-zag encoding": 0, -1, 1, -2, ... map
to 0, 1, 2, 3, ... -/
def cvtInt64ToZigZag (i : Int) : Nat :=
  if 0 ≤ i then 2 * i.toNat else 2 * (-i).toNat - 1

/-- Modelled from the spec: cvtInt64FromZigZag, the inverse mapping. -/
def cvtInt64FromZigZag (n : Nat) : Int :=
  if n % 2 = 0 then ((n / 2 : Nat) : Int) else -(((n / 2 : Nat) : Int) + 1)

theorem zigZag_roundtrip (i : Int) : cvtInt64FromZigZag (cvtInt64ToZigZag i) = i := by
  rw [cvtInt64ToZigZag]
  by_cases h : 0 ≤ i
  · rw [if_pos h, cvtInt64FromZigZag, if_pos (by omega)]
    omega
  · rw [if_neg h, cvtInt64FromZigZag]
    have h1 : 1 ≤ (-i).toNat := by omega
    rw [if_neg (by omega)]
    omega

theorem zigZag_lt (i : Int) (w : Nat) (hlo : -(2 ^ w) ≤ i) (hhi : i < 2 ^ w) :
    cvtInt64ToZigZag i < 2 ^ (w + 1) := by
  rw [cvtInt64ToZigZag]
  by_cases h : 0 ≤ i
  · rw [if_pos h]
    have : (2 : Int) ^ w = ((2 ^ w : Nat) : Int) := by push_cast; ring
    omega
  · rw [if_neg h]
    have : (2 : Int) ^ w = ((2 ^ w : Nat) : Int) := by push_cast; ring
    omega

/- A pack value; containers hold their fields (id and value each). -/
mutual
inductive PackValue where
  | bool (b : Bool)
  | i32 (i : Int)
  | i64 (i : Int)
  | time (t : Int)
  | u32 (n : Nat)
  | u64 (n : Nat)
  | ptr (n : Nat)
  | str (s : List Nat)
  | bin (s : List Nat)
  | array (fs : PackFields)
  | obj (fs : PackFields)

inductive PackFields where
  | nil
  | cons (id : Nat) (v : PackValue) (rest : PackFields)
end

/- The writer, composed from the typed pckWrite* functions: each writes a
tag (with zig-zag conversion for signed types, and a size/payload for
str/bin), containers write their fields and a closing zero byte
(pckWriteArrayEnd / pckWriteObjEnd). -/
mutual
def pckWriteValue (idLast id : Nat) : PackValue → List Nat
  | .bool b => pckWriteTag PackType.bool idLast id (if b then 1 else 0)
  | .i32 i => pckWriteTag PackType.i32 idLast id (cvtInt64ToZigZag i)
  | .i64 i => pckWriteTag PackType.i64 idLast id (cvtInt64ToZigZag i)
  | .time t => pckWriteTag PackType.time idLast id (cvtInt64ToZigZag t)
  | .u32 n => pckWriteTag PackType.u32 idLast id n
  | .u64 n => pckWriteTag PackType.u64 idLast id n
  | .ptr n => pckWriteTag PackType.ptr idLast id n
  | .str s => pckWriteTag PackType.str idLast id (if 0 < s.length then 1 else 0) ++
      (if 0 < s.length then pckWriteUInt64Internal s.length ++ s else [])
  | .bin s => pckWriteTag PackType.bin idLast id (if 0 < s.length then 1 else 0) ++
      (if 0 < s.length then pckWriteUInt64Internal s.length ++ s else [])
  | .array fs => pckWriteTag PackType.array idLast id 0 ++
      (pckWriteFields 0 fs ++ pckWriteUInt64Internal 0)
  | .obj fs => pckWriteTag PackType.obj idLast id 0 ++
      (pckWriteFields 0 fs ++ pckWriteUInt64Internal 0)

def pckWriteFields (idLast : Nat) : PackFields → List Nat
  | .nil => []
  | .cons id v rest => pckWriteValue idLast id v ++ pckWriteFields id rest
end

/- The reader, composed from the typed pckRead* functions.  The schema
argument selects which typed read to perform (as the consuming code does)
and carries the caller-supplied default for the NULL case.  Each result
field is returned with the id the reader decoded for it (tagNextId at the
match, what pckReadId reports); on the NULL path the resolved requested id
is returned with the default.  Containers follow pckReadArrayBegin /
pckReadArrayEnd: no NULL check, a sub-scope for ids starting at 0, and an
unconditional pop after the end peek at UINT_MAX - 1 that resets the
pending tag. -/
mutual
def pckReadValueM (s : RState) (id0 : Nat) : PackValue → Option ((Nat × PackValue) × RState)
  | .bool d =>
    (pckReadNullM s id0).bind fun r =>
      if r.1 then some ((r.2.1, PackValue.bool d), r.2.2)
      else (pckReadTagM r.2.2 r.2.1 PackType.bool false).bind fun r2 =>
        some ((r2.2.1.id, PackValue.bool (r2.2.1.value != 0)), r2.2.2)
  | .i32 d =>
    (pckReadNullM s id0).bind fun r =>
      if r.1 then some ((r.2.1, PackValue.i32 d), r.2.2)
      else (pckReadTagM r.2.2 r.2.1 PackType.i32 false).bind fun r2 =>
        some ((r2.2.1.id, PackValue.i32 (cvtInt64FromZigZag (r2.2.1.value % 2 ^ 32))), r2.2.2)
  | .i64 d =>
    (pckReadNullM s id0).bind fun r =>
      if r.1 then some ((r.2.1, PackValue.i64 d), r.2.2)
      else (pckReadTagM r.2.2 r.2.1 PackType.i64 false).bind fun r2 =>
        some ((r2.2.1.id, PackValue.i64 (cvtInt64FromZigZag r2.2.1.value)), r2.2.2)
  | .time d =>
    (pckReadNullM s id0).bind fun r =>
      if r.1 then some ((r.2.1, PackValue.time d), r.2.2)
      else (pckReadTagM r.2.2 r.2.1 PackType.time false).bind fun r2 =>
        some ((r2.2.1.id, PackValue.time (cvtInt64FromZigZag r2.2.1.value)), r2.2.2)
  | .u32 d =>
    (pckReadNullM s id0).bind fun r =>
      if r.1 then some ((r.2.1, PackValue.u32 d), r.2.2)
      else (pckReadTagM r.2.2 r.2.1 PackType.u32 false).bind fun r2 =>
        some ((r2.2.1.id, PackValue.u32 (r2.2.1.value % 2 ^ 32)), r2.2.2)
  | .u64 d =>
    (pckReadNullM s id0).bind fun r =>
      if r.1 then some ((r.2.1, PackValue.u64 d), r.2.2)
      else (pckReadTagM r.2.2 r.2.1 PackType.u64 false).bind fun r2 =>
        some ((r2.2.1.id, PackValue.u64 r2.2.1.value), r2.2.2)
  | .ptr d =>
    (pckReadNullM s id0).bind fun r =>
      if r.1 then some ((r.2.1, PackValue.ptr d), r.2.2)
      else (pckReadTagM r.2.2 r.2.1 PackType.ptr false).bind fun r2 =>
        some ((r2.2.1.id, PackValue.ptr r2.2.1.value), r2.2.2)
  | .str d =>
    (pckReadNullM s id0).bind fun r =>
      if r.1 then some ((r.2.1, PackValue.str d), r.2.2)
      else (pckReadTagM r.2.2 r.2.1 PackType.str false).bind fun r2 =>
        if r2.2.1.value != 0 then
          (pckReadUInt64Internal r2.2.2.bytes).bind fun rs =>
            if rs.1 ≤ rs.2.length then
              some ((r2.2.1.id, PackValue.str (rs.2.take rs.1)),
                { r2.2.2 with bytes := rs.2.drop rs.1 })
            else none
        else some ((r2.2.1.id, PackValue.str []), r2.2.2)
  | .bin d =>
    (pckReadNullM s id0).bind fun r =>
      if r.1 then some ((r.2.1, PackValue.bin d), r.2.2)
      else (pckReadTagM r.2.2 r.2.1 PackType.bin false).bind fun r2 =>
        if r2.2.1.value != 0 then
          (pckReadUInt64Internal r2.2.2.bytes).bind fun rs =>
            if rs.1 ≤ rs.2.length then
              some ((r2.2.1.id, PackValue.bin (rs.2.take rs.1)),
                { r2.2.2 with bytes := rs.2.drop rs.1 })
            else none
        else some ((r2.2.1.id, PackValue.bin []), r2.2.2)
  | .array dfs =>
    (pckReadTagM s id0 PackType.array false).bind fun r =>
      (pckReadFieldsM ⟨0, r.2.2.pending, r.2.2.bytes⟩ dfs).bind fun rf =>
        (pckReadTagM rf.2 (uintMax - 1) PackType.unknown true).bind fun re =>
          some ((r.2.1.id, PackValue.array rf.1), ⟨r.2.2.idLast, none, re.2.2.bytes⟩)
  | .obj dfs =>
    (pckReadTagM s id0 PackType.obj false).bind fun r =>
      (pckReadFieldsM ⟨0, r.2.2.pending, r.2.2.bytes⟩ dfs).bind fun rf =>
        (pckReadTagM rf.2 (uintMax - 1) PackType.unknown true).bind fun re =>
          some ((r.2.1.id, PackValue.obj rf.1), ⟨r.2.2.idLast, none, re.2.2.bytes⟩)

def pckReadFieldsM (s : RState) : PackFields → Option (PackFields × RState)
  | .nil => some (.nil, s)
  | .cons id d rest =>
    (pckReadValueM s id d).bind fun r =>
      (pckReadFieldsM r.2 rest).bind fun rr =>
        some (PackFields.cons r.1.1 r.1.2 rr.1, rr.2)
end

/- The schema of a value: same constructors, zeroed payloads (used as the
defaults handed to the typed reads in the round-trip statement). -/
mutual
def shapeOfValue : PackValue → PackValue
  | .bool _ => .bool false
  | .i32 _ => .i32 0
  | .i64 _ => .i64 0
  | .time _ => .time 0
  | .u32 _ => .u32 0
  | .u64 _ => .u64 0
  | .ptr _ => .ptr 0
  | .str _ => .str []
  | .bin _ => .bin []
  | .array fs => .array (shapeOfFields fs)
  | .obj fs => .obj (shapeOfFields fs)

def shapeOfFields : PackFields → PackFields
  | .nil => .nil
  | .cons id v rest => .cons id (shapeOfValue v) (shapeOfFields rest)
end

/- Value bounds from the C types (uint64_t, uint32_t, int64_t, int32_t,
time_t, uintptr_t) and the id constraints of the writer (CHECK(id > idLast))
and reader (UINT_MAX sentinels). -/
mutual
def wfValue : PackValue → Bool
  | .bool _ => true
  | .i32 i => decide (-(2 ^ 31) ≤ i) && decide (i < 2 ^ 31)
  | .i64 i => decide (-(2 ^ 63) ≤ i) && decide (i < 2 ^ 63)
  | .time t => decide (-(2 ^ 63) ≤ t) && decide (t < 2 ^ 63)
  | .u32 n => decide (n < 2 ^ 32)
  | .u64 n => decide (n < 2 ^ 64)
  | .ptr n => decide (n < 2 ^ 64)
  | .str s => decide (s.length < 2 ^ 64)
  | .bin s => decide (s.length < 2 ^ 64)
  | .array fs => wfFields 0 fs
  | .obj fs => wfFields 0 fs

def wfFields (idLast : Nat) : PackFields → Bool
  | .nil => true
  | .cons id v rest =>
    decide (idLast < id) && decide (id < uintMax - 1) && wfValue v && wfFields id rest
end

/-- The id of the last field (idLast after writing or reading them all). -/
def lastId (idLast : Nat) : PackFields → Nat
  | .nil => idLast
  | .cons id _ rest => lastId id rest

end Pack

namespace Pack

theorem uintMax_val : uintMax = 4294967295 := rfl

theorem varint_zero : pckWriteUInt64Internal 0 = [0] := by
  rw [pckWriteUInt64Internal]
  norm_num

theorem readTagNext_zero (k : Nat) (p : Option PTag) (rest : List Nat) :
    pckReadTagNextM ⟨k, p, 0 :: rest⟩ =
      some ⟨k, some ⟨uintMax, PackType.unknown, 0⟩, rest⟩ := by
  rw [pckReadTagNextM]
  simp

theorem lastId_lt : ∀ (fs : PackFields) (k : Nat), k < uintMax - 1 → wfFields k fs = true →
    lastId k fs < uintMax - 1
  | .nil, k, hk, _ => by simpa [lastId] using hk
  | .cons id v rest, k, hk, hwf => by
    simp only [wfFields, Bool.and_eq_true, decide_eq_true_eq] at hwf
    simpa [lastId] using lastId_lt rest id hwf.1.1.2 hwf.2

/-- The common skeleton of every typed scalar read over a freshly written
field: the NULL peek decodes the tag and sees the requested id, then the
typed read consumes it. -/
theorem scalar_case (ty : PackType) (k id value : Nat) (rest : List Nat)
    (hdec : pckReadTagNextM ⟨k, none, pckWriteTagDelta ty (id - k - 1) value ++ rest⟩ =
      some ⟨k, some ⟨id, ty, value⟩, rest⟩)
    (h0 : id ≠ 0) (hgt : k < id) :
    pckReadNullM ⟨k, none, pckWriteTagDelta ty (id - k - 1) value ++ rest⟩ id =
        some (false, id, ⟨k, some ⟨id, ty, value⟩, rest⟩) ∧
    pckReadTagM ⟨k, some ⟨id, ty, value⟩, rest⟩ id ty false =
        some (id, ⟨id, ty, value⟩, ⟨id, none, rest⟩) := by
  constructor
  · rw [pckReadNullM,
      readTagM_decode_match_peek _ _ ⟨id, ty, value⟩ id PackType.unknown rfl hdec rfl h0 hgt rfl]
    simp
  · exact readTagM_pending_match _ ⟨id, ty, value⟩ id ty rfl h0 hgt rfl rfl

end Pack

namespace Pack

/-- Decoding a multi-bit tag regardless of whether the value was packed in
the tag or follows it. -/
theorem tagRead_multi (ty : PackType) (hty : ty.valueMultiBit = true) (hne : ty ≠ .unknown)
    (k delta value : Nat) (rest : List Nat) (hd : delta < 2 ^ 32) (hv64 : value < 2 ^ 64) :
    pckReadTagNextM ⟨k, none, pckWriteTagDelta ty delta value ++ rest⟩ =
      some ⟨k, some ⟨delta + k + 1, ty, value⟩, rest⟩ := by
  by_cases h2 : value < 2
  · exact tagRead_ms ty hty hne k delta value rest hd h2
  · exact tagRead_mb ty hty hne k delta value rest hd (by omega) hv64

theorem read_write_u64 (k id n : Nat) (rest : List Nat) (hn : n < 2 ^ 64) (hgt : k < id)
    (hlt : id < uintMax - 1) :
    pckReadValueM ⟨k, none, pckWriteValue k id (PackValue.u64 n) ++ rest⟩ id (PackValue.u64 0) =
      some ((id, PackValue.u64 n), ⟨id, none, rest⟩) := by
  have h0 : id ≠ 0 := by omega
  have hd : id - k - 1 < 2 ^ 32 := by
    rw [uintMax_val] at hlt
    omega
  have hdec := tagRead_multi PackType.u64 rfl (by decide) k (id - k - 1) n rest hd hn
  rw [show id - k - 1 + k + 1 = id from by omega] at hdec
  have hsc := scalar_case PackType.u64 k id n rest hdec h0 hgt
  simp only [pckWriteValue, pckWriteTag]
  simp only [pckReadValueM, hsc.1, Option.some_bind, Bool.false_eq_true, if_false, hsc.2]

theorem read_write_ptr (k id n : Nat) (rest : List Nat) (hn : n < 2 ^ 64) (hgt : k < id)
    (hlt : id < uintMax - 1) :
    pckReadValueM ⟨k, none, pckWriteValue k id (PackValue.ptr n) ++ rest⟩ id (PackValue.ptr 0) =
      some ((id, PackValue.ptr n), ⟨id, none, rest⟩) := by
  have h0 : id ≠ 0 := by omega
  have hd : id - k - 1 < 2 ^ 32 := by
    rw [uintMax_val] at hlt
    omega
  have hdec := tagRead_multi PackType.ptr rfl (by decide) k (id - k - 1) n rest hd hn
  rw [show id - k - 1 + k + 1 = id from by omega] at hdec
  have hsc := scalar_case PackType.ptr k id n rest hdec h0 hgt
  simp only [pckWriteValue, pckWriteTag]
  simp only [pckReadValueM, hsc.1, Option.some_bind, Bool.false_eq_true, if_false, hsc.2]

theorem read_write_u32 (k id n : Nat) (rest : List Nat) (hn : n < 2 ^ 32) (hgt : k < id)
    (hlt : id < uintMax - 1) :
    pckReadValueM ⟨k, none, pckWriteValue k id (PackValue.u32 n) ++ rest⟩ id (PackValue.u32 0) =
      some ((id, PackValue.u32 n), ⟨id, none, rest⟩) := by
  have h0 : id ≠ 0 := by omega
  have hd : id - k - 1 < 2 ^ 32 := by
    rw [uintMax_val] at hlt
    omega
  have hdec := tagRead_multi PackType.u32 rfl (by decide) k (id - k - 1) n rest hd (by omega)
  rw [show id - k - 1 + k + 1 = id from by omega] at hdec
  have hsc := scalar_case PackType.u32 k id n rest hdec h0 hgt
  simp only [pckWriteValue, pckWriteTag]
  simp only [pckReadValueM, hsc.1, Option.some_bind, Bool.false_eq_true, if_false, hsc.2,
    Nat.mod_eq_of_lt hn]

theorem read_write_i64 (k id : Nat) (i : Int) (rest : List Nat)
    (hlo : -(2 ^ 63) ≤ i) (hhi : i < 2 ^ 63) (hgt : k < id) (hlt : id < uintMax - 1) :
    pckReadValueM ⟨k, none, pckWriteValue k id (PackValue.i64 i) ++ rest⟩ id (PackValue.i64 0) =
      some ((id, PackValue.i64 i), ⟨id, none, rest⟩) := by
  have h0 : id ≠ 0 := by omega
  have hd : id - k - 1 < 2 ^ 32 := by
    rw [uintMax_val] at hlt
    omega
  have hz : cvtInt64ToZigZag i < 2 ^ 64 := zigZag_lt i 63 hlo hhi
  have hdec := tagRead_multi PackType.i64 rfl (by decide) k (id - k - 1)
    (cvtInt64ToZigZag i) rest hd hz
  rw [show id - k - 1 + k + 1 = id from by omega] at hdec
  have hsc := scalar_case PackType.i64 k id (cvtInt64ToZigZag i) rest hdec h0 hgt
  simp only [pckWriteValue, pckWriteTag]
  simp only [pckReadValueM, hsc.1, Option.some_bind, Bool.false_eq_true, if_false, hsc.2,
    zigZag_roundtrip]

theorem read_write_time (k id : Nat) (i : Int) (rest : List Nat)
    (hlo : -(2 ^ 63) ≤ i) (hhi : i < 2 ^ 63) (hgt : k < id) (hlt : id < uintMax - 1) :
    pckReadValueM ⟨k, none, pckWriteValue k id (PackValue.time i) ++ rest⟩ id
        (PackValue.time 0) =
      some ((id, PackValue.time i), ⟨id, none, rest⟩) := by
  have h0 : id ≠ 0 := by omega
  have hd : id - k - 1 < 2 ^ 32 := by
    rw [uintMax_val] at hlt
    omega
  have hz : cvtInt64ToZigZag i < 2 ^ 64 := zigZag_lt i 63 hlo hhi
  have hdec := tagRead_multi PackType.time rfl (by decide) k (id - k - 1)
    (cvtInt64ToZigZag i) rest hd hz
  rw [show id - k - 1 + k + 1 = id from by omega] at hdec
  have hsc := scalar_case PackType.time k id (cvtInt64ToZigZag i) rest hdec h0 hgt
  simp only [pckWriteValue, pckWriteTag]
  simp only [pckReadValueM, hsc.1, Option.some_bind, Bool.false_eq_true, if_false, hsc.2,
    zigZag_roundtrip]

theorem read_write_i32 (k id : Nat) (i : Int) (rest : List Nat)
    (hlo : -(2 ^ 31) ≤ i) (hhi : i < 2 ^ 31) (hgt : k < id) (hlt : id < uintMax - 1) :
    pckReadValueM ⟨k, none, pckWriteValue k id (PackValue.i32 i) ++ rest⟩ id (PackValue.i32 0) =
      some ((id, PackValue.i32 i), ⟨id, none, rest⟩) := by
  have h0 : id ≠ 0 := by omega
  have hd : id - k - 1 < 2 ^ 32 := by
    rw [uintMax_val] at hlt
    omega
  have hz : cvtInt64ToZigZag i < 2 ^ 32 := zigZag_lt i 31 hlo hhi
  have hdec := tagRead_multi PackType.i32 rfl (by decide) k (id - k - 1)
    (cvtInt64ToZigZag i) rest hd (by omega)
  rw [show id - k - 1 + k + 1 = id from by omega] at hdec
  have hsc := scalar_case PackType.i32 k id (cvtInt64ToZigZag i) rest hdec h0 hgt
  simp only [pckWriteValue, pckWriteTag]
  simp only [pckReadValueM, hsc.1, Option.some_bind, Bool.false_eq_true, if_false, hsc.2,
    Nat.mod_eq_of_lt hz, zigZag_roundtrip]

theorem read_write_bool (k id : Nat) (b : Bool) (rest : List Nat) (hgt : k < id)
    (hlt : id < uintMax - 1) :
    pckReadValueM ⟨k, none, pckWriteValue k id (PackValue.bool b) ++ rest⟩ id
        (PackValue.bool false) =
      some ((id, PackValue.bool b), ⟨id, none, rest⟩) := by
  have h0 : id ≠ 0 := by omega
  have hd : id - k - 1 < 2 ^ 32 := by
    rw [uintMax_val] at hlt
    omega
  have hdec := tagRead_sb PackType.bool rfl rfl (by decide) k (id - k - 1)
    (if b then 1 else 0) rest hd (by cases b <;> norm_num)
  rw [show id - k - 1 + k + 1 = id from by omega] at hdec
  have hsc := scalar_case PackType.bool k id (if b then 1 else 0) rest hdec h0 hgt
  simp only [pckWriteValue, pckWriteTag]
  simp only [pckReadValueM, hsc.1, Option.some_bind, Bool.false_eq_true, if_false, hsc.2]
  cases b <;> simp

end Pack

namespace Pack

theorem read_write_str (k id : Nat) (s rest : List Nat)
    (hslen : s.length < 2 ^ 64) (hgt : k < id) (hlt : id < uintMax - 1) :
    pckReadValueM ⟨k, none, pckWriteValue k id (PackValue.str s) ++ rest⟩ id
        (PackValue.str []) =
      some ((id, PackValue.str s), ⟨id, none, rest⟩) := by
  have h0 : id ≠ 0 := by omega
  have hd : id - k - 1 < 2 ^ 32 := by
    rw [uintMax_val] at hlt
    omega
  by_cases hs : 0 < s.length
  · have hdec := tagRead_sb PackType.str rfl rfl (by decide) k (id - k - 1) 1
      (pckWriteUInt64Internal s.length ++ (s ++ rest)) hd (by norm_num)
    rw [show id - k - 1 + k + 1 = id from by omega] at hdec
    have hsc := scalar_case PackType.str k id 1
      (pckWriteUInt64Internal s.length ++ (s ++ rest)) hdec h0 hgt
    simp only [pckWriteValue, pckWriteTag, if_pos hs, List.append_assoc]
    simp only [pckReadValueM, hsc.1, Option.some_bind, Bool.false_eq_true, if_false, hsc.2]
    rw [pckReadUInt64Internal_write s.length (s ++ rest) hslen]
    simp only [Option.some_bind, List.length_append, if_pos (by omega : s.length ≤ s.length + rest.length)]
    simp [List.take_left, List.drop_left]
  · have hs0 : s.length = 0 := by omega
    have hsnil : s = [] := List.length_eq_zero.mp hs0
    subst hsnil
    have hdec := tagRead_sb PackType.str rfl rfl (by decide) k (id - k - 1) 0 rest hd
      (by norm_num)
    rw [show id - k - 1 + k + 1 = id from by omega] at hdec
    have hsc := scalar_case PackType.str k id 0 rest hdec h0 hgt
    simp only [pckWriteValue, pckWriteTag, List.length_nil, Nat.lt_irrefl, if_false,
      List.append_nil]
    simp only [pckReadValueM, hsc.1, Option.some_bind, Bool.false_eq_true, if_false, hsc.2]
    simp

theorem read_write_bin (k id : Nat) (s rest : List Nat)
    (hslen : s.length < 2 ^ 64) (hgt : k < id) (hlt : id < uintMax - 1) :
    pckReadValueM ⟨k, none, pckWriteValue k id (PackValue.bin s) ++ rest⟩ id
        (PackValue.bin []) =
      some ((id, PackValue.bin s), ⟨id, none, rest⟩) := by
  have h0 : id ≠ 0 := by omega
  have hd : id - k - 1 < 2 ^ 32 := by
    rw [uintMax_val] at hlt
    omega
  by_cases hs : 0 < s.length
  · have hdec := tagRead_sb PackType.bin rfl rfl (by decide) k (id - k - 1) 1
      (pckWriteUInt64Internal s.length ++ (s ++ rest)) hd (by norm_num)
    rw [show id - k - 1 + k + 1 = id from by omega] at hdec
    have hsc := scalar_case PackType.bin k id 1
      (pckWriteUInt64Internal s.length ++ (s ++ rest)) hdec h0 hgt
    simp only [pckWriteValue, pckWriteTag, if_pos hs, List.append_assoc]
    simp only [pckReadValueM, hsc.1, Option.some_bind, Bool.false_eq_true, if_false, hsc.2]
    rw [pckReadUInt64Internal_write s.length (s ++ rest) hslen]
    simp only [Option.some_bind, List.length_append, if_pos (by omega : s.length ≤ s.length + rest.length)]
    simp [List.take_left, List.drop_left]
  · have hs0 : s.length = 0 := by omega
    have hsnil : s = [] := List.length_eq_zero.mp hs0
    subst hsnil
    have hdec := tagRead_sb PackType.bin rfl rfl (by decide) k (id - k - 1) 0 rest hd
      (by norm_num)
    rw [show id - k - 1 + k + 1 = id from by omega] at hdec
    have hsc := scalar_case PackType.bin k id 0 rest hdec h0 hgt
    simp only [pckWriteValue, pckWriteTag, List.length_nil, Nat.lt_irrefl, if_false,
      List.append_nil]
    simp only [pckReadValueM, hsc.1, Option.some_bind, Bool.false_eq_true, if_false, hsc.2]
    simp

end Pack

namespace Pack

/-- pckReadArrayEnd / pckReadObjEnd: the peek at UINT_MAX - 1 decodes the
closing zero byte into the UINT_MAX sentinel and breaks. -/
theorem container_end (m : Nat) (rest : List Nat) (hm : m < uintMax - 1) :
    pckReadTagM ⟨m, none, 0 :: rest⟩ (uintMax - 1) PackType.unknown true =
      some (uintMax - 1, ⟨uintMax, PackType.unknown, 0⟩,
        ⟨m, some ⟨uintMax, PackType.unknown, 0⟩, rest⟩) :=
  readTagM_decode_lt _ _ _ _ _ _ rfl (readTagNext_zero m none rest) rfl
    (by rw [uintMax_val]; norm_num) hm (by rw [uintMax_val]; norm_num)

mutual

/-- Round trip of one field: reading a freshly written field at its id,
with the schema selecting the same typed read the writer used, returns the
written value, reports the written id, and leaves the reader past the
field. -/
theorem pckReadValueM_write : ∀ (v : PackValue) (k id : Nat) (rest : List Nat),
    wfValue v = true → k < id → id < uintMax - 1 →
    pckReadValueM ⟨k, none, pckWriteValue k id v ++ rest⟩ id (shapeOfValue v) =
      some ((id, v), ⟨id, none, rest⟩)
  | .bool b, k, id, rest, _, hgt, hlt => by
    simpa [shapeOfValue] using read_write_bool k id b rest hgt hlt
  | .i32 i, k, id, rest, hwf, hgt, hlt => by
    simp only [wfValue, Bool.and_eq_true, decide_eq_true_eq] at hwf
    simpa [shapeOfValue] using read_write_i32 k id i rest hwf.1 hwf.2 hgt hlt
  | .i64 i, k, id, rest, hwf, hgt, hlt => by
    simp only [wfValue, Bool.and_eq_true, decide_eq_true_eq] at hwf
    simpa [shapeOfValue] using read_write_i64 k id i rest hwf.1 hwf.2 hgt hlt
  | .time t, k, id, rest, hwf, hgt, hlt => by
    simp only [wfValue, Bool.and_eq_true, decide_eq_true_eq] at hwf
    simpa [shapeOfValue] using read_write_time k id t rest hwf.1 hwf.2 hgt hlt
  | .u32 n, k, id, rest, hwf, hgt, hlt => by
    simp only [wfValue, decide_eq_true_eq] at hwf
    simpa [shapeOfValue] using read_write_u32 k id n rest hwf hgt hlt
  | .u64 n, k, id, rest, hwf, hgt, hlt => by
    simp only [wfValue, decide_eq_true_eq] at hwf
    simpa [shapeOfValue] using read_write_u64 k id n rest hwf hgt hlt
  | .ptr n, k, id, rest, hwf, hgt, hlt => by
    simp only [wfValue, decide_eq_true_eq] at hwf
    simpa [shapeOfValue] using read_write_ptr k id n rest hwf hgt hlt
  | .str s, k, id, rest, hwf, hgt, hlt => by
    simp only [wfValue, decide_eq_true_eq] at hwf
    simpa [shapeOfValue] using read_write_str k id s rest hwf hgt hlt
  | .bin s, k, id, rest, hwf, hgt, hlt => by
    simp only [wfValue, decide_eq_true_eq] at hwf
    simpa [shapeOfValue] using read_write_bin k id s rest hwf hgt hlt
  | .array fs, k, id, rest, hwf, hgt, hlt => by
    have h0 : id ≠ 0 := by omega
    have hd : id - k - 1 < 2 ^ 32 := by
      rw [uintMax_val] at hlt
      omega
    have hwff : wfFields 0 fs = true := by simpa [wfValue] using hwf
    have hdec := tagRead_ct PackType.array rfl rfl (by decide) k (id - k - 1)
      (pckWriteFields 0 fs ++ (0 :: rest)) hd
    rw [show id - k - 1 + k + 1 = id from by omega] at hdec
    have hbegin := readTagM_decode_match _ _ ⟨id, PackType.array, 0⟩ id PackType.array
      rfl hdec rfl h0 hgt rfl rfl
    have hfields := pckReadFieldsM_write fs 0 (0 :: rest) hwff
    have hend := container_end (lastId 0 fs) rest
      (lastId_lt fs 0 (by rw [uintMax_val]; norm_num) hwff)
    simp only [pckWriteValue, pckWriteTag, varint_zero, List.append_assoc,
      List.singleton_append, shapeOfValue]
    simp only [pckReadValueM, hbegin, Option.some_bind, hfields, hend]
  | .obj fs, k, id, rest, hwf, hgt, hlt => by
    have h0 : id ≠ 0 := by omega
    have hd : id - k - 1 < 2 ^ 32 := by
      rw [uintMax_val] at hlt
      omega
    have hwff : wfFields 0 fs = true := by simpa [wfValue] using hwf
    have hdec := tagRead_ct PackType.obj rfl rfl (by decide) k (id - k - 1)
      (pckWriteFields 0 fs ++ (0 :: rest)) hd
    rw [show id - k - 1 + k + 1 = id from by omega] at hdec
    have hbegin := readTagM_decode_match _ _ ⟨id, PackType.obj, 0⟩ id PackType.obj
      rfl hdec rfl h0 hgt rfl rfl
    have hfields := pckReadFieldsM_write fs 0 (0 :: rest) hwff
    have hend := container_end (lastId 0 fs) rest
      (lastId_lt fs 0 (by rw [uintMax_val]; norm_num) hwff)
    simp only [pckWriteValue, pckWriteTag, varint_zero, List.append_assoc,
      List.singleton_append, shapeOfValue]
    simp only [pckReadValueM, hbegin, Option.some_bind, hfields, hend]

/-- Round trip of a field sequence: every written field comes back with
the same id and value, in order. -/
theorem pckReadFieldsM_write : ∀ (fs : PackFields) (k : Nat) (rest : List Nat),
    wfFields k fs = true →
    pckReadFieldsM ⟨k, none, pckWriteFields k fs ++ rest⟩ (shapeOfFields fs) =
      some (fs, ⟨lastId k fs, none, rest⟩)
  | .nil, k, rest, _ => by
    simp [pckWriteFields, pckReadFieldsM, shapeOfFields, lastId]
  | .cons id v fr, k, rest, hwf => by
    simp only [wfFields, Bool.and_eq_true, decide_eq_true_eq] at hwf
    have h1 := pckReadValueM_write v k id (pckWriteFields id fr ++ rest)
      hwf.1.2 hwf.1.1.1 hwf.1.1.2
    have h2 := pckReadFieldsM_write fr id rest hwf.2
    simp only [pckWriteFields, List.append_assoc, shapeOfFields]
    simp only [pckReadFieldsM, h1, Option.some_bind, h2, lastId]

end

end Pack

namespace Pack

/-- The pack type a value is written as. -/
def typeOfValue : PackValue → PackType
  | .bool _ => .bool
  | .i32 _ => .i32
  | .i64 _ => .i64
  | .time _ => .time
  | .u32 _ => .u32
  | .u64 _ => .u64
  | .ptr _ => .ptr
  | .str _ => .str
  | .bin _ => .bin
  | .array _ => .array
  | .obj _ => .obj

/-- The 64-bit tag value the writer passes to pckWriteTag for a value. -/
def tagValueOf : PackValue → Nat
  | .bool b => if b then 1 else 0
  | .i32 i => cvtInt64ToZigZag i
  | .i64 i => cvtInt64ToZigZag i
  | .time t => cvtInt64ToZigZag t
  | .u32 n => n
  | .u64 n => n
  | .ptr n => n
  | .str s => if 0 < s.length then 1 else 0
  | .bin s => if 0 < s.length then 1 else 0
  | .array _ => 0
  | .obj _ => 0

/-- The bytes following the tag: size and payload for str/bin, fields and
the closing zero byte for containers, nothing for the other types. -/
def payloadOf : PackValue → List Nat
  | .str s => if 0 < s.length then pckWriteUInt64Internal s.length ++ s else []
  | .bin s => if 0 < s.length then pckWriteUInt64Internal s.length ++ s else []
  | .array fs => pckWriteFields 0 fs ++ pckWriteUInt64Internal 0
  | .obj fs => pckWriteFields 0 fs ++ pckWriteUInt64Internal 0
  | _ => []

theorem write_decomp (v : PackValue) (k id : Nat) :
    pckWriteValue k id v =
      pckWriteTagDelta (typeOfValue v) (id - k - 1) (tagValueOf v) ++ payloadOf v := by
  cases v <;> simp [pckWriteValue, pckWriteTag, typeOfValue, tagValueOf, payloadOf]

/-- Decoding the tag of any well-formed written value. -/
theorem decode_any (v : PackValue) (k delta : Nat) (rest : List Nat)
    (hwf : wfValue v = true) (hd : delta < 2 ^ 32) :
    pckReadTagNextM ⟨k, none, pckWriteTagDelta (typeOfValue v) delta (tagValueOf v) ++ rest⟩ =
      some ⟨k, some ⟨delta + k + 1, typeOfValue v, tagValueOf v⟩, rest⟩ := by
  cases v with
  | bool b =>
    simp only [typeOfValue, tagValueOf]
    exact tagRead_sb PackType.bool rfl rfl (by decide) k delta _ rest hd
      (by cases b <;> norm_num)
  | i32 i =>
    simp only [wfValue, Bool.and_eq_true, decide_eq_true_eq] at hwf
    have hz := zigZag_lt i 31 hwf.1 hwf.2
    simp only [typeOfValue, tagValueOf]
    exact tagRead_multi PackType.i32 rfl (by decide) k delta _ rest hd (by omega)
  | i64 i =>
    simp only [wfValue, Bool.and_eq_true, decide_eq_true_eq] at hwf
    have hz := zigZag_lt i 63 hwf.1 hwf.2
    simp only [typeOfValue, tagValueOf]
    exact tagRead_multi PackType.i64 rfl (by decide) k delta _ rest hd (by omega)
  | time t =>
    simp only [wfValue, Bool.and_eq_true, decide_eq_true_eq] at hwf
    have hz := zigZag_lt t 63 hwf.1 hwf.2
    simp only [typeOfValue, tagValueOf]
    exact tagRead_multi PackType.time rfl (by decide) k delta _ rest hd (by omega)
  | u32 n =>
    simp only [wfValue, decide_eq_true_eq] at hwf
    simp only [typeOfValue, tagValueOf]
    exact tagRead_multi PackType.u32 rfl (by decide) k delta _ rest hd (by omega)
  | u64 n =>
    simp only [wfValue, decide_eq_true_eq] at hwf
    simp only [typeOfValue, tagValueOf]
    exact tagRead_multi PackType.u64 rfl (by decide) k delta _ rest hd hwf
  | ptr n =>
    simp only [wfValue, decide_eq_true_eq] at hwf
    simp only [typeOfValue, tagValueOf]
    exact tagRead_multi PackType.ptr rfl (by decide) k delta _ rest hd hwf
  | str s =>
    simp only [typeOfValue, tagValueOf]
    refine tagRead_sb PackType.str rfl rfl (by decide) k delta _ rest hd ?_
    split <;> norm_num
  | bin s =>
    simp only [typeOfValue, tagValueOf]
    refine tagRead_sb PackType.bin rfl rfl (by decide) k delta _ rest hd ?_
    split <;> norm_num
  | array fs =>
    simp only [typeOfValue, tagValueOf]
    exact tagRead_ct PackType.array rfl rfl (by decide) k delta rest hd
  | obj fs =>
    simp only [typeOfValue, tagValueOf]
    exact tagRead_ct PackType.obj rfl rfl (by decide) k delta rest hd

/-- Scalar schemas consume the reader state only through pckReadNullM. -/
def PackValue.isScalar : PackValue → Bool
  | .array _ => false
  | .obj _ => false
  | _ => true

theorem readValueM_congr_scalar (sch : PackValue) (hsch : sch.isScalar = true)
    (s s' : RState) (id0 : Nat) (h : pckReadNullM s id0 = pckReadNullM s' id0) :
    pckReadValueM s id0 sch = pckReadValueM s' id0 sch := by
  cases sch <;> simp_all [pckReadValueM, PackValue.isScalar]

end Pack

namespace Pack

theorem shapeOf_isScalar (v : PackValue) : (shapeOfValue v).isScalar = v.isScalar := by
  cases v <;> rfl

/-- After a NULL read left the later field pending, a scalar typed read of
that field still returns its value: the pending state behaves like a fresh
reader positioned just before the field. -/
theorem c5_scalar_part (v : PackValue) (hsc : (shapeOfValue v).isScalar = true)
    (N M : Nat) (rest : List Nat) (hwf : wfValue v = true) (h2 : N < M)
    (h3 : M < uintMax - 1) :
    pckReadValueM ⟨N, some ⟨M, typeOfValue v, tagValueOf v⟩, payloadOf v ++ rest⟩ M
        (shapeOfValue v) =
      some ((M, v), ⟨M, none, rest⟩) := by
  have h0M : M ≠ 0 := by omega
  have hdN : M - N - 1 < 2 ^ 32 := by
    rw [uintMax_val] at h3
    omega
  have hdec2 := decode_any v N (M - N - 1) (payloadOf v ++ rest) hwf hdN
  rw [show M - N - 1 + N + 1 = M from by omega] at hdec2
  have hnullp : pckReadNullM ⟨N, some ⟨M, typeOfValue v, tagValueOf v⟩, payloadOf v ++ rest⟩ M =
      some (false, M, ⟨N, some ⟨M, typeOfValue v, tagValueOf v⟩, payloadOf v ++ rest⟩) := by
    rw [pckReadNullM, readTagM_pending_match_peek _ ⟨M, typeOfValue v, tagValueOf v⟩ M
      PackType.unknown rfl h0M h2 rfl]
    simp
  have hnulld : pckReadNullM ⟨N, none, pckWriteValue N M v ++ rest⟩ M =
      some (false, M, ⟨N, some ⟨M, typeOfValue v, tagValueOf v⟩, payloadOf v ++ rest⟩) := by
    rw [pckReadNullM, write_decomp v N M, List.append_assoc,
      readTagM_decode_match_peek _ _ ⟨M, typeOfValue v, tagValueOf v⟩ M PackType.unknown rfl
        hdec2 rfl h0M h2 rfl]
    simp
  rw [readValueM_congr_scalar (shapeOfValue v) hsc _ ⟨N, none, pckWriteValue N M v ++ rest⟩ M
    (hnullp.trans hnulld.symm)]
  exact pckReadValueM_write v N M rest hwf h2 h3

end Pack

namespace Pack

/-- The container analogue of c5_scalar_part. -/
theorem c5_container_array (fs : PackFields) (N M : Nat) (rest : List Nat)
    (hwff : wfFields 0 fs = true) (h2 : N < M) :
    pckReadValueM ⟨N, some ⟨M, PackType.array, 0⟩,
        payloadOf (PackValue.array fs) ++ rest⟩ M (shapeOfValue (PackValue.array fs)) =
      some ((M, PackValue.array fs), ⟨M, none, rest⟩) := by
  have h0M : M ≠ 0 := by omega
  have hbegin := readTagM_pending_match ⟨N, some ⟨M, PackType.array, 0⟩,
      payloadOf (PackValue.array fs) ++ rest⟩ ⟨M, PackType.array, 0⟩ M PackType.array rfl
      h0M h2 rfl rfl
  have hfields := pckReadFieldsM_write fs 0 (0 :: rest) hwff
  have hend := container_end (lastId 0 fs) rest
    (lastId_lt fs 0 (by rw [uintMax_val]; norm_num) hwff)
  simp only [payloadOf, varint_zero, List.append_assoc, List.singleton_append] at hbegin ⊢
  simp only [shapeOfValue, pckReadValueM, hbegin, Option.some_bind, hfields, hend]

theorem c5_container_obj (fs : PackFields) (N M : Nat) (rest : List Nat)
    (hwff : wfFields 0 fs = true) (h2 : N < M) :
    pckReadValueM ⟨N, some ⟨M, PackType.obj, 0⟩,
        payloadOf (PackValue.obj fs) ++ rest⟩ M (shapeOfValue (PackValue.obj fs)) =
      some ((M, PackValue.obj fs), ⟨M, none, rest⟩) := by
  have h0M : M ≠ 0 := by omega
  have hbegin := readTagM_pending_match ⟨N, some ⟨M, PackType.obj, 0⟩,
      payloadOf (PackValue.obj fs) ++ rest⟩ ⟨M, PackType.obj, 0⟩ M PackType.obj rfl
      h0M h2 rfl rfl
  have hfields := pckReadFieldsM_write fs 0 (0 :: rest) hwff
  have hend := container_end (lastId 0 fs) rest
    (lastId_lt fs 0 (by rw [uintMax_val]; norm_num) hwff)
  simp only [payloadOf, varint_zero, List.append_assoc, List.singleton_append] at hbegin ⊢
  simp only [shapeOfValue, pckReadValueM, hbegin, Option.some_bind, hfields, hend]

/-- The NULL read of a missing id N: the next tag (id M > N) is decoded and
kept pending, idLast advances to N, and the typed read returns the
caller-supplied default. -/
theorem c5_null_part (v : PackValue) (k N M dflt : Nat) (rest : List Nat)
    (hwf : wfValue v = true) (h1 : k < N) (h2 : N < M) (h3 : M < uintMax - 1) :
    pckReadU64M ⟨k, none, pckWriteValue k M v ++ rest⟩ N dflt =
      some (dflt, ⟨N, some ⟨M, typeOfValue v, tagValueOf v⟩, payloadOf v ++ rest⟩) := by
  have h0N : N ≠ 0 := by omega
  have hdk : M - k - 1 < 2 ^ 32 := by
    rw [uintMax_val] at h3
    omega
  have hdec1 := decode_any v k (M - k - 1) (payloadOf v ++ rest) hwf hdk
  rw [show M - k - 1 + k + 1 = M from by omega] at hdec1
  have hnull : pckReadNullM ⟨k, none, pckWriteValue k M v ++ rest⟩ N =
      some (true, N, ⟨N, some ⟨M, typeOfValue v, tagValueOf v⟩, payloadOf v ++ rest⟩) := by
    rw [pckReadNullM, write_decomp v k M, List.append_assoc,
      readTagM_decode_lt _ _ ⟨M, typeOfValue v, tagValueOf v⟩ N PackType.unknown true rfl
        hdec1 rfl h0N h1 h2]
    simp [h2]
  rw [pckReadU64M, hnull]
  simp

end Pack

namespace Pack

/-- C4: Pack round-trip: for every sequence of values (of any pack field
type, nested containers included) written by the pack writer at a strictly
increasing sequence of field ids (omitted ids appear as gaps), a pack
reader over the produced bytes returns exactly the same values and reports
exactly the same ids: the returned fields carry the ids the reader decoded
from the tag stream (tagNextId at each match), and they equal the written
fields. -/
theorem C4_pack_roundtrip (fs : PackFields) (rest : List Nat)
    (hwf : wfFields 0 fs = true) :
    pckReadFieldsM ⟨0, none, pckWriteFields 0 fs ++ rest⟩ (shapeOfFields fs) =
      some (fs, ⟨lastId 0 fs, none, rest⟩) :=
  pckReadFieldsM_write fs 0 rest hwf

/-- Sample fields for the C4 witness: a u64, a string after an id gap, an
array with a bool inside, and a negative i64 after another gap. -/
def c4sampleFields : PackFields :=
  .cons 1 (.u64 1000) (.cons 3 (.str [104, 105])
    (.cons 4 (.array (.cons 2 (.bool true) .nil)) (.cons 10 (.i64 (-77)) .nil)))

theorem C4_pack_roundtrip_witness :
    wfFields 0 c4sampleFields = true ∧
    pckReadFieldsM ⟨0, none, pckWriteFields 0 c4sampleFields ++ []⟩
        (shapeOfFields c4sampleFields) =
      some (c4sampleFields, ⟨lastId 0 c4sampleFields, none, []⟩) :=
  ⟨by decide, C4_pack_roundtrip c4sampleFields [] (by decide)⟩

/-- C5: Pack NULL-gap reads: in a pack where field id N was omitted but a
field at id M > N exists, a typed read of id N returns the caller-supplied
default, leaving the later field pending (the reader does not advance past
it), and a subsequent read of id M still returns that field's value. -/
theorem C5_null_gap_read (v : PackValue) (k N M dflt : Nat) (rest : List Nat)
    (hwf : wfValue v = true) (h1 : k < N) (h2 : N < M) (h3 : M < uintMax - 1) :
    pckReadU64M ⟨k, none, pckWriteValue k M v ++ rest⟩ N dflt =
      some (dflt, ⟨N, some ⟨M, typeOfValue v, tagValueOf v⟩, payloadOf v ++ rest⟩) ∧
    pckReadValueM ⟨N, some ⟨M, typeOfValue v, tagValueOf v⟩, payloadOf v ++ rest⟩ M
        (shapeOfValue v) =
      some ((M, v), ⟨M, none, rest⟩) := by
  refine ⟨c5_null_part v k N M dflt rest hwf h1 h2 h3, ?_⟩
  cases v with
  | array fs => exact c5_container_array fs N M rest (by simpa [wfValue] using hwf) h2
  | obj fs => exact c5_container_obj fs N M rest (by simpa [wfValue] using hwf) h2
  | bool b => exact c5_scalar_part (PackValue.bool b) rfl N M rest hwf h2 h3
  | i32 i => exact c5_scalar_part (PackValue.i32 i) rfl N M rest hwf h2 h3
  | i64 i => exact c5_scalar_part (PackValue.i64 i) rfl N M rest hwf h2 h3
  | time t => exact c5_scalar_part (PackValue.time t) rfl N M rest hwf h2 h3
  | u32 n => exact c5_scalar_part (PackValue.u32 n) rfl N M rest hwf h2 h3
  | u64 n => exact c5_scalar_part (PackValue.u64 n) rfl N M rest hwf h2 h3
  | ptr n => exact c5_scalar_part (PackValue.ptr n) rfl N M rest hwf h2 h3
  | str s => exact c5_scalar_part (PackValue.str s) rfl N M rest hwf h2 h3
  | bin s => exact c5_scalar_part (PackValue.bin s) rfl N M rest hwf h2 h3

theorem C5_null_gap_read_witness :
    wfValue (PackValue.str [120]) = true ∧
    (pckReadU64M ⟨0, none, pckWriteValue 0 5 (PackValue.str [120]) ++ []⟩ 2 9 =
        some (9, ⟨2, some ⟨5, typeOfValue (PackValue.str [120]),
          tagValueOf (PackValue.str [120])⟩, payloadOf (PackValue.str [120]) ++ []⟩) ∧
      pckReadValueM ⟨2, some ⟨5, typeOfValue (PackValue.str [120]),
          tagValueOf (PackValue.str [120])⟩, payloadOf (PackValue.str [120]) ++ []⟩ 5
          (shapeOfValue (PackValue.str [120])) =
        some ((5, PackValue.str [120]), ⟨5, none, []⟩)) :=
  ⟨by decide, C5_null_gap_read (PackValue.str [120]) 0 2 5 9 [] (by decide) (by decide)
    (by decide) (by decide)⟩

end Pack

namespace ArchiveGet

/-- regExpMatch against the preserve expression `^(m1|m2|...)$` that
queueNeed builds by joining the ideal queue with `|` (get.c line 69): an
anchored alternation of literal WAL segment names (24 hex digits, no regex
metacharacters), which matches exactly the members of the ideal queue. -/
def regExpPreserveMatch (idealQueue : List String) (file : String) : Bool :=
  idealQueue.contains file

/-- The files remaining in <spool>/archive/in after the queueNeed cleaning
pass (get.c lines 74-86): entries matching the preserve expression are
kept, every other entry is removed with storageRemoveP. -/
def spoolAfterClean (idealQueue actualQueue : List String) : List String :=
  actualQueue.filter (regExpPreserveMatch idealQueue)

/-- Stated from the spec's words for claim C1: basename(f) is in the set
of x, x.ok, x.error for x in the ideal queue. -/
def inIdealClosure (idealQueue : List String) (file : String) : Bool :=
  idealQueue.any fun x => file = x || file = x ++ ".ok" || file = x ++ ".error"

/-- C1 counterexample: a .ok marker of a segment that is in the ideal
queue is in the spec's preserve set, yet the cleaning pass deletes it
(the preserve regex matches only the bare segment names; the code comment
says "error/ok files are deleted so the async process can try again"). -/
theorem C1_counterexample :
    inIdealClosure ["000000010000000100000005"] "000000010000000100000005.ok" = true ∧
    spoolAfterClean ["000000010000000100000005"] ["000000010000000100000005.ok"] = [] := by
  constructor
  · decide
  · decide

/-- C1 (amended): after the cleaning pass that precedes the async run, a
file in <spool>/archive/in survives if and only if its name is exactly a
member of the ideal queue; .ok and .error markers are always deleted,
including those of segments in the ideal queue. -/
theorem C1_preserve_or_evict (idealQueue actualQueue : List String) (f : String) :
    f ∈ spoolAfterClean idealQueue actualQueue ↔ f ∈ actualQueue ∧ f ∈ idealQueue := by
  simp [spoolAfterClean, regExpPreserveMatch, List.mem_filter]

/-- Modelled from the spec: walSegmentNext (command/archive/common.c is
not under src/): the successor in the consecutive segment ordering
(SegmentNeighborhood).  Segments are abstracted as their index in that
ordering. -/
def walSegmentNext (walSegment : Nat) : Nat := walSegment + 1

/-- Modelled from the spec: walSegmentRange: the ordered sequence of
`total` consecutive segments beginning at the given one. -/
def walSegmentRange (walSegmentFirst total : Nat) : List Nat :=
  (List.range total).map (walSegmentFirst + ·)

/-- queueNeed lines 48-62: choose the first segment (the requested one, or
its successor when it was already found) and the queue size
(unsigned int)(queueSize / walSegmentSize), at least 2; the cast to
unsigned int truncates modulo 2^32. -/
def queueNeedIdeal (walSegment : Nat) (found : Bool) (queueSize walSegmentSize : Nat) :
    List Nat :=
  let walSegmentFirst := if found then walSegmentNext walSegment else walSegment
  let walSegmentQueueTotal := queueSize / walSegmentSize % 2 ^ 32
  let walSegmentQueueTotal := if walSegmentQueueTotal < 2 then 2 else walSegmentQueueTotal
  walSegmentRange walSegmentFirst walSegmentQueueTotal

/-- C3 counterexample: when queueMax / segmentSize reaches 2^32 the
(unsigned int) cast truncates it to 0, so the ideal queue has length 2,
not max(2, floor(queueMax / segmentSize)) = 2^32 as the claim states. -/
theorem C3_counterexample :
    (queueNeedIdeal 0 false (2 ^ 52) (2 ^ 20)).length = 2 ∧
    max 2 (2 ^ 52 / 2 ^ 20) = 2 ^ 32 ∧ (2 : Nat) ≠ 2 ^ 32 := by
  refine ⟨?_, by norm_num, by norm_num⟩
  decide

/-- C3 (amended): the ideal queue is exactly
max 2 ((queueMax / segmentSize) mod 2^32) consecutive segments starting at
the requested segment (or its successor when it was already found); when
the quotient stays below 2^32 (every realistic configuration) this is the
claim's max(2, floor(queueMax / segmentSize)), and when
queueMax < 2 * segmentSize the length is exactly 2. -/
theorem walSegmentRange_length (f t : Nat) : (walSegmentRange f t).length = t := by
  simp [walSegmentRange]

theorem walSegmentRange_head (f t : Nat) (h : 0 < t) :
    (walSegmentRange f t).head? = some f := by
  cases t with
  | zero => omega
  | succ m =>
    rw [walSegmentRange, List.range_succ_eq_map]
    simp

theorem walSegmentRange_getD (f t i : Nat) (h : i < t) :
    (walSegmentRange f t).getD i 0 = f + i := by
  rw [walSegmentRange, List.getD_eq_getElem?_getD, List.getElem?_map, List.getElem?_range h]
  simp

theorem C3_ideal_queue (walSegment : Nat) (found : Bool) (queueSize walSegmentSize : Nat) :
    (queueNeedIdeal walSegment found queueSize walSegmentSize).length =
      max 2 (queueSize / walSegmentSize % 2 ^ 32) ∧
    (queueNeedIdeal walSegment found queueSize walSegmentSize).head? =
      some (if found then walSegment + 1 else walSegment) ∧
    (∀ i, i < (queueNeedIdeal walSegment found queueSize walSegmentSize).length →
      (queueNeedIdeal walSegment found queueSize walSegmentSize).getD i 0 =
        (if found then walSegment + 1 else walSegment) + i) ∧
    (queueSize < 2 * walSegmentSize →
      (queueNeedIdeal walSegment found queueSize walSegmentSize).length = 2) := by
  have hunfold : queueNeedIdeal walSegment found queueSize walSegmentSize =
      walSegmentRange (if found then walSegment + 1 else walSegment)
        (if queueSize / walSegmentSize % 2 ^ 32 < 2 then 2
          else queueSize / walSegmentSize % 2 ^ 32) := by
    simp only [queueNeedIdeal, walSegmentNext]
  have htot : (if queueSize / walSegmentSize % 2 ^ 32 < 2 then 2
      else queueSize / walSegmentSize % 2 ^ 32) = max 2 (queueSize / walSegmentSize % 2 ^ 32) := by
    by_cases hq : queueSize / walSegmentSize % 2 ^ 32 < 2
    · rw [if_pos hq]
      omega
    · rw [if_neg hq]
      omega
  rw [hunfold, htot]
  refine ⟨walSegmentRange_length _ _, walSegmentRange_head _ _ (by omega), ?_, ?_⟩
  · intro i hi
    rw [walSegmentRange_length] at hi
    exact walSegmentRange_getD _ _ i hi
  · intro hsmall
    rw [walSegmentRange_length]
    have hq : queueSize / walSegmentSize % 2 ^ 32 ≤ 1 := by
      rcases Nat.eq_zero_or_pos walSegmentSize with h0 | hpos
      · simp [h0]
      · have := Nat.div_lt_of_lt_mul (by omega : queueSize < walSegmentSize * 2)
        have h2 : queueSize / walSegmentSize % 2 ^ 32 ≤ queueSize / walSegmentSize :=
          Nat.mod_le _ _
        omega
    omega

end ArchiveGet

namespace ArchiveGet

theorem C3_ideal_queue_witness :
    (queueNeedIdeal 7 true (3 * 2 ^ 20) (2 ^ 20)).getD 1 0 = 8 + 1 ∧
    (queueNeedIdeal 9 false (2 ^ 20) (2 ^ 20)).length = 2 :=
  ⟨(C3_ideal_queue 7 true (3 * 2 ^ 20) (2 ^ 20)).2.2.1 1 (by decide),
    (C3_ideal_queue 9 false (2 ^ 20) (2 ^ 20)).2.2.2 (by norm_num)⟩

/-- Configuration consumed by the deadline loop. -/
structure LoopConfig where
  queueMax : Nat

/-- The environment one loop iteration observes: the async status check,
whether the segment is in the spool, the spool listing and segment size
used for the queue estimate, and the advisory lock outcome as a function
of the timeout argument passed to lockAcquire. -/
structure LoopOracle where
  statusOk : Bool
  segExists : Bool
  queueCount : Nat
  walSegmentSize : Nat
  lockAcquire : Nat → Bool

/-- State carried across iterations of the do/while loop in cmdArchiveGet
(get.c lines 140-253), plus an instrumentation counter for forks. -/
structure LoopState where
  found : Bool
  queueFull : Bool
  forked : Bool
  throwOnError : Bool
  result : Nat
  forkCount : Nat

def initLoopState : LoopState :=
  { found := false, queueFull := false, forked := false, throwOnError := false,
    result := 1, forkCount := 0 }

inductive StepRes where
  | brk (s : LoopState)
  | cont (s : LoopState)

def StepRes.state : StepRes → LoopState
  | .brk s => s
  | .cont s => s

/-- The queueFull update (get.c lines 187-198): recomputed only when the
segment was found and the queue listing is nonempty. -/
def queueFullUpd (cfg : LoopConfig) (s : LoopState) (o : LoopOracle) : Bool :=
  if o.segExists && decide (0 < o.queueCount) then
    decide (o.queueCount * o.walSegmentSize > cfg.queueMax / 2)
  else s.queueFull

/-- One iteration of the deadline loop (get.c lines 148-252): async status
check (break on ok/error), spool check and delivery, the guarded fork of
the async process with lockAcquire timeout 0, break when found, else set
throwOnError for the next iteration. -/
def cmdArchiveGetStep (cfg : LoopConfig) (s : LoopState) (o : LoopOracle) : StepRes :=
  if o.statusOk then .brk s
  else
    let s1 : LoopState :=
      { s with found := o.segExists,
               result := if o.segExists then 0 else s.result,
               queueFull := queueFullUpd cfg s o }
    let doFork := !s1.forked && (!s1.found || !s1.queueFull) && o.lockAcquire 0
    let s2 : LoopState :=
      if doFork then { s1 with forked := true, forkCount := s1.forkCount + 1 } else s1
    if s2.found then .brk s2
    else .cont { s2 with throwOnError := true }

/-- The loop: one oracle per iteration, ending early on break (the oracle
list length plays the role of waitMore). -/
def cmdArchiveGetRun (cfg : LoopConfig) : LoopState → List LoopOracle → LoopState
  | s, [] => s
  | s, o :: os =>
    match cmdArchiveGetStep cfg s o with
    | .brk s1 => s1
    | .cont s1 => cmdArchiveGetRun cfg s1 os

theorem step_fork_invariant (cfg : LoopConfig) (s : LoopState) (o : LoopOracle)
    (h : s.forkCount ≤ if s.forked then 1 else 0) :
    (cmdArchiveGetStep cfg s o).state.forkCount ≤
      if (cmdArchiveGetStep cfg s o).state.forked then 1 else 0 := by
  rw [cmdArchiveGetStep]
  by_cases hst : o.statusOk
  · simp only [hst, if_true, StepRes.state]
    exact h
  · simp only [hst, Bool.false_eq_true, if_false]
    by_cases hdf : (!s.forked && (!o.segExists || !queueFullUpd cfg s o) &&
        o.lockAcquire 0) = true
    · have hsf : s.forked = false := by
        have h1 := hdf
        simp only [Bool.and_eq_true, Bool.not_eq_true'] at h1
        exact h1.1.1
      rw [hsf] at h
      simp only [Bool.false_eq_true, if_false, Nat.le_zero] at h
      simp only [if_pos hdf]
      split <;> simp only [StepRes.state] <;> simp only [if_true] <;> omega
    · simp only [if_neg hdf]
      split <;> simp only [StepRes.state] <;> exact h

theorem run_fork_invariant (cfg : LoopConfig) (os : List LoopOracle) : ∀ (s : LoopState),
    s.forkCount ≤ (if s.forked then 1 else 0) →
    (cmdArchiveGetRun cfg s os).forkCount ≤ 1 := by
  induction os with
  | nil =>
    intro s h
    rw [cmdArchiveGetRun]
    split at h <;> omega
  | cons o os ih =>
    intro s h
    rw [cmdArchiveGetRun]
    have hstep := step_fork_invariant cfg s o h
    cases hres : cmdArchiveGetStep cfg s o with
    | brk s1 =>
      rw [hres] at hstep
      simp only [StepRes.state] at hstep
      show s1.forkCount ≤ 1
      split at hstep <;> omega
    | cont s1 =>
      rw [hres] at hstep
      simp only [StepRes.state] at hstep
      show (cmdArchiveGetRun cfg s1 os).forkCount ≤ 1
      exact ih s1 hstep

/-- C2: At-most-one fork with guard: over any run of the deadline loop the
async process is forked at most once, and a step forks (increments the
instrumentation counter) only when it has not been forked yet, the segment
was not found in the spool or the queue is not more than half full, and
lockAcquire succeeded with timeout 0. -/
theorem C2_at_most_one_fork (cfg : LoopConfig) (os : List LoopOracle)
    (s : LoopState) (o : LoopOracle) :
    (cmdArchiveGetRun cfg initLoopState os).forkCount ≤ 1 ∧
    (s.forkCount < (cmdArchiveGetStep cfg s o).state.forkCount →
      s.forked = false ∧
      (o.segExists = false ∨ queueFullUpd cfg s o = false) ∧
      o.lockAcquire 0 = true ∧
      (cmdArchiveGetStep cfg s o).state.forkCount = s.forkCount + 1) := by
  constructor
  · exact run_fork_invariant cfg os initLoopState (by simp [initLoopState])
  · intro hinc
    simp only [cmdArchiveGetStep, StepRes.state] at hinc ⊢
    split_ifs at hinc ⊢ with h1 h2 h3 h4 <;>
      simp_all only [Bool.and_eq_true, Bool.not_eq_true', Bool.or_eq_true] <;>
      simp_all

end ArchiveGet

namespace ArchiveGet

theorem C2_at_most_one_fork_witness :
    (cmdArchiveGetRun ⟨100⟩ initLoopState [⟨false, false, 0, 0, fun _ => true⟩]).forkCount ≤ 1 ∧
    (initLoopState.forked = false ∧
      ((⟨false, false, 0, 0, fun _ => true⟩ : LoopOracle).segExists = false ∨
        queueFullUpd ⟨100⟩ initLoopState ⟨false, false, 0, 0, fun _ => true⟩ = false) ∧
      (⟨false, false, 0, 0, fun _ => true⟩ : LoopOracle).lockAcquire 0 = true ∧
      (cmdArchiveGetStep ⟨100⟩ initLoopState
          ⟨false, false, 0, 0, fun _ => true⟩).state.forkCount =
        initLoopState.forkCount + 1) :=
  ⟨(C2_at_most_one_fork ⟨100⟩ [⟨false, false, 0, 0, fun _ => true⟩] initLoopState
      ⟨false, false, 0, 0, fun _ => true⟩).1,
    (C2_at_most_one_fork ⟨100⟩ [⟨false, false, 0, 0, fun _ => true⟩] initLoopState
      ⟨false, false, 0, 0, fun _ => true⟩).2 (by decide)⟩

/-- A completed job as cmdArchiveGetAsync sees it: the key (wal segment),
protocolParallelJobErrorCode / Message, and varIntForce of the job result
(0 means the segment was found). -/
structure AsyncJob where
  walSegment : String
  errorCode : Int
  errorMessage : String
  result : Int

/-- A status marker written into the spool: <SEG>.ok with optional
warnings, or <SEG>.error / global.error (segment none) with code and
message. -/
inductive StatusMarker where
  | ok (segment : String) (warnings : Option (List String))
  | err (segment : Option String) (code : Int) (message : String)
deriving DecidableEq

/-- The per-job dispatch of cmdArchiveGetAsync (get.c lines 356-381):
success and found writes nothing; success but not found writes <SEG>.ok
with NULL warnings (archiveAsyncStatusOkWrite(..., NULL)); an errored job
writes <SEG>.error with the job's code and message. -/
def archiveGetAsyncJobMarkers (job : AsyncJob) : List StatusMarker :=
  if job.errorCode = 0 then
    if job.result = 0 then []
    else [.ok job.walSegment none]
  else [.err (some job.walSegment) job.errorCode job.errorMessage]

/-- cmdArchiveGetAsync's job loop wrapped in TRY/CATCH (get.c 322-394):
jobs complete one at a time; an uncaught error may strike after any number
of completed jobs (`interrupt = some (k, code, msg)` strikes after k
jobs), in which case a global.error marker (segment none) is written and
the error is re-raised (the second component of the result). -/
def cmdArchiveGetAsyncRun : List AsyncJob → Option (Nat × Int × String) →
    List StatusMarker × Option (Int × String)
  | _, some (0, code, msg) => ([.err none code msg], some (code, msg))
  | [], some (_, code, msg) => ([.err none code msg], some (code, msg))
  | [], none => ([], none)
  | j :: rest, some (k + 1, code, msg) =>
    let r := cmdArchiveGetAsyncRun rest (some (k, code, msg))
    (archiveGetAsyncJobMarkers j ++ r.1, r.2)
  | j :: rest, none =>
    let r := cmdArchiveGetAsyncRun rest none
    (archiveGetAsyncJobMarkers j ++ r.1, r.2)

/-- C6: Async status markers: a successful job that found its segment
writes nothing; a successful job that did not find it writes <SEG>.ok
carrying the job's warnings (none: get.c passes NULL, the job result
carries no warnings); an errored job writes <SEG>.error with the job's
code and message; and when an uncaught error escapes the run, a
global.error marker with the outer error is written and the error is
re-raised. -/
theorem C6_async_status_markers (jobs : List AsyncJob) (j : AsyncJob)
    (k : Nat) (code : Int) (msg : String) :
    ((j.errorCode = 0 → j.result = 0 → archiveGetAsyncJobMarkers j = []) ∧
      (j.errorCode = 0 → j.result ≠ 0 →
        archiveGetAsyncJobMarkers j = [.ok j.walSegment none]) ∧
      (j.errorCode ≠ 0 →
        archiveGetAsyncJobMarkers j = [.err (some j.walSegment) j.errorCode j.errorMessage])) ∧
    cmdArchiveGetAsyncRun jobs none = (jobs.flatMap archiveGetAsyncJobMarkers, none) ∧
    ((cmdArchiveGetAsyncRun jobs (some (k, code, msg))).2 = some (code, msg) ∧
      StatusMarker.err none code msg ∈ (cmdArchiveGetAsyncRun jobs (some (k, code, msg))).1) := by
  refine ⟨⟨?_, ?_, ?_⟩, ?_, ?_⟩
  · intro h1 h2
    simp [archiveGetAsyncJobMarkers, h1, h2]
  · intro h1 h2
    simp [archiveGetAsyncJobMarkers, h1, h2]
  · intro h1
    simp [archiveGetAsyncJobMarkers, h1]
  · induction jobs with
    | nil => rfl
    | cons a rest ih =>
      rw [cmdArchiveGetAsyncRun, ih]
      simp
  · induction jobs generalizing k with
    | nil =>
      cases k <;> simp [cmdArchiveGetAsyncRun]
    | cons a rest ih =>
      cases k with
      | zero => simp [cmdArchiveGetAsyncRun]
      | succ m =>
        rw [cmdArchiveGetAsyncRun]
        have := ih m
        refine ⟨this.1, ?_⟩
        simp only [List.mem_append]
        exact Or.inr this.2

theorem C6_async_status_markers_witness :
    ((⟨"S1", 0, "", 0⟩ : AsyncJob).errorCode = 0 ∧ (⟨"S1", 0, "", 0⟩ : AsyncJob).result = 0 ∧
      archiveGetAsyncJobMarkers ⟨"S1", 0, "", 0⟩ = []) ∧
    (archiveGetAsyncJobMarkers ⟨"S2", 0, "", 1⟩ = [.ok "S2" none]) ∧
    (archiveGetAsyncJobMarkers ⟨"S3", 55, "boom", 0⟩ = [.err (some "S3") 55 "boom"]) ∧
    (cmdArchiveGetAsyncRun [⟨"S2", 0, "", 1⟩] (some (1, 99, "crash"))).2 = some (99, "crash") :=
  ⟨⟨rfl, rfl, (C6_async_status_markers [] ⟨"S1", 0, "", 0⟩ 0 0 "").1.1 rfl rfl⟩,
    (C6_async_status_markers [] ⟨"S2", 0, "", 1⟩ 0 0 "").1.2.1 rfl (by decide),
    (C6_async_status_markers [] ⟨"S3", 55, "boom", 0⟩ 0 0 "").1.2.2 (by decide),
    (C6_async_status_markers [⟨"S2", 0, "", 1⟩] ⟨"S1", 0, "", 0⟩ 1 99 "crash").2.2.1⟩

end ArchiveGet

namespace ArchiveGet

/-- A protocol parameter variant: VARSTR (nullable string) or VARUINT. -/
inductive ProtoParam where
  | str (s : Option String)
  | uint (n : Nat)
deriving DecidableEq

/-- The parameters archiveGetAsyncCallback (get.c lines 285-310) attaches
to an archive-get request: protocolCommandParamAdd(command,
VARSTR(walSegment)) and nothing else. -/
def archiveGetAsyncRequestParams (walSegment : String) : List ProtoParam :=
  [.str (some walSegment)]

/-- varStr: returns the string of a string variant, errors on others. -/
def varStrM : ProtoParam → Option (Option String)
  | .str s => some s
  | .uint _ => none

/-- varUIntForce on a uint variant (string conversions are not needed by
the decoder model). -/
def varUIntForceM : ProtoParam → Option Nat
  | .uint n => some n
  | .str _ => none

/-- One candidate repository as decoded by the worker. -/
structure ArchiveGetFile where
  file : Option String
  repoIdx : Nat
  archiveId : Option String
  cipherType : Nat
  cipherPassArchive : Option String
deriving DecidableEq

/-- The worker's decode of the actual list: five consecutive parameters
per candidate (protocol.c lines 49-64). -/
def decodeActualList : List ProtoParam → Option (List ArchiveGetFile)
  | [] => some []
  | f :: r :: a :: c :: p :: rest =>
    (varStrM f).bind fun file =>
      (varUIntForceM r).bind fun repoIdx =>
        (varStrM a).bind fun archiveId =>
          (varUIntForceM c).bind fun cipherType =>
            (varStrM p).bind fun cipherPass =>
              (decodeActualList rest).map fun tail =>
                ⟨file, repoIdx, archiveId, cipherType, cipherPass⟩ :: tail
  | _ => none

/-- archiveGetProtocol (protocol.c lines 40-64): the first parameter is
the requested segment, then CHECK((size - 1) mod 5 == 0), then the actual
list is decoded from the remaining parameters in groups of five. -/
def archiveGetProtocolDecode (paramList : List ProtoParam) :
    Option (Option String × List ArchiveGetFile) :=
  match paramList with
  | [] => none
  | p0 :: restParams =>
    (varStrM p0).bind fun request =>
      if (paramList.length - 1) % 5 = 0 then
        (decodeActualList restParams).map fun actualList => (request, actualList)
      else none

/-- C7: the parent's request for a segment carries only the segment name
(no per-repository fields at all), and the worker, decoding five-field
candidate groups from the parameters after the segment, therefore obtains
an empty candidate list.  This is the code evaluated at the failing input
for the code_bug verdict: the spec's five-field candidate groups are what
protocol.c decodes, but get.c never sends them. -/
theorem C7_request_shape (walSegment : String) :
    archiveGetAsyncRequestParams walSegment = [ProtoParam.str (some walSegment)] ∧
    archiveGetProtocolDecode (archiveGetAsyncRequestParams walSegment) =
      some (some walSegment, []) := by
  constructor
  · rfl
  · rfl

/-- The five-field groups themselves are decoded as the spec says when
they are present: this pins down the worker side of the protocol. -/
theorem decodeActualList_group (file : Option String) (repoIdx : Nat)
    (archiveId : Option String) (cipherType : Nat) (cipherPass : Option String)
    (rest : List ProtoParam) (tail : List ArchiveGetFile)
    (h : decodeActualList rest = some tail) :
    decodeActualList (.str file :: .uint repoIdx :: .str archiveId :: .uint cipherType ::
        .str cipherPass :: rest) =
      some (⟨file, repoIdx, archiveId, cipherType, cipherPass⟩ :: tail) := by
  simp [decodeActualList, varStrM, varUIntForceM, h]

/-- The events of the fork block in cmdArchiveGet (get.c lines 204-243),
in program order: the lockAcquire in the guard (line 205), reading
pg_control (208), creating the spool path (211), building the async argv
(214-230, including queueNeed at 225), clearing prior errors (233),
releasing the lock (236), executing (forking) the async process (239), and
marking forked = true (243). -/
inductive ForkBlockEvent where
  | lockAcquire
  | pgControlFromFile
  | spoolPathCreate
  | execParamBuild
  | queueNeed
  | errorClear
  | lockRelease
  | asyncExecFork
  | markForked
deriving DecidableEq

def forkBlockEvents : List ForkBlockEvent :=
  [.lockAcquire, .pgControlFromFile, .spoolPathCreate, .execParamBuild, .queueNeed,
   .errorClear, .lockRelease, .asyncExecFork, .markForked]

/-- The lock is held before executing the event at index i when the
acquires among the first i events outnumber the releases. -/
def lockHeldBefore (events : List ForkBlockEvent) (i : Nat) : Bool :=
  (events.take i).count .lockRelease < (events.take i).count .lockAcquire

/-- C8 counterexample: in the fork block the lock is released before the
async process is forked, so the fork does not happen while the foreground
holds the lock (the source comment: "Release the lock so the child process
can acquire it"). -/
theorem C8_counterexample :
    List.indexOf ForkBlockEvent.lockRelease forkBlockEvents <
      List.indexOf ForkBlockEvent.asyncExecFork forkBlockEvents ∧
    lockHeldBefore forkBlockEvents
      (List.indexOf ForkBlockEvent.asyncExecFork forkBlockEvents) = false := by
  constructor
  · decide
  · decide

/-- C8 (amended): in the fork block the lock is acquired, then the ideal
queue is computed (queueNeed), then the lock is released, and only after
the release is the async child forked; the queue computation happens under
the lock, the fork does not. -/
theorem C8_lock_window :
    List.indexOf ForkBlockEvent.lockAcquire forkBlockEvents <
      List.indexOf ForkBlockEvent.queueNeed forkBlockEvents ∧
    List.indexOf ForkBlockEvent.queueNeed forkBlockEvents <
      List.indexOf ForkBlockEvent.lockRelease forkBlockEvents ∧
    List.indexOf ForkBlockEvent.lockRelease forkBlockEvents <
      List.indexOf ForkBlockEvent.asyncExecFork forkBlockEvents ∧
    lockHeldBefore forkBlockEvents
      (List.indexOf ForkBlockEvent.queueNeed forkBlockEvents) = true ∧
    lockHeldBefore forkBlockEvents
      (List.indexOf ForkBlockEvent.asyncExecFork forkBlockEvents) = false := by
  refine ⟨?_, ?_, ?_, ?_, ?_⟩ <;> decide

end ArchiveGet

namespace ConfigLoad

/-- cfgOptionSource values. -/
inductive CfgSource where
  | cfgSourceDefault
  | cfgSourceParam
  | cfgSourceConfig
deriving DecidableEq

inductive ConfigError where
  | optionInvalidValue
deriving DecidableEq

/-- cfgLoadUpdateOption lines 81-110: when both db-timeout and
protocol-timeout are set and protocol-timeout <= db-timeout, a defaulted
protocol-timeout is raised to db-timeout + 30; else a defaulted db-timeout
is lowered to protocol-timeout - 30 (or protocol-timeout / 2 when that
would be under 15); else OptionInvalidValueError is thrown.  Timeouts are
doubles in the source, modelled as rationals. -/
def cfgLoadUpdateTimeout (protocolTimeout : ℚ) (protocolSource : CfgSource)
    (dbTimeout : ℚ) (dbSource : CfgSource) : Except ConfigError (ℚ × ℚ) :=
  if protocolTimeout ≤ dbTimeout then
    if protocolSource = .cfgSourceDefault then .ok (dbTimeout + 30, dbTimeout)
    else if dbSource = .cfgSourceDefault then
      let dbTimeout2 := protocolTimeout - 30
      if 15 ≤ dbTimeout2 then .ok (protocolTimeout, dbTimeout2)
      else .ok (protocolTimeout, protocolTimeout / 2)
    else .error .optionInvalidValue
  else .ok (protocolTimeout, dbTimeout)

/-- C9 counterexample: protocol-timeout equal to db-timeout satisfies the
claim's "greater than or equal", but with both options explicitly
configured the load fails with OptionInvalidValueError (the code requires
strictly greater: `protocolTimeout <= dbTimeout` enters the error path). -/
theorem C9_counterexample :
    (10 : ℚ) ≥ 10 ∧
    cfgLoadUpdateTimeout 10 .cfgSourceParam 10 .cfgSourceParam =
      .error .optionInvalidValue := by
  constructor
  · norm_num
  · rfl

/-- C9 (amended): a protocol-timeout strictly greater than db-timeout is
accepted unchanged; when protocol-timeout <= db-timeout and neither value
can be adjusted (both explicitly configured), configuration load fails
with an invalid-option-value error. -/
theorem C9_protocol_timeout (p d : ℚ) (ps ds : CfgSource) :
    (d < p → cfgLoadUpdateTimeout p ps d ds = .ok (p, d)) ∧
    (p ≤ d → ps ≠ .cfgSourceDefault → ds ≠ .cfgSourceDefault →
      cfgLoadUpdateTimeout p ps d ds = .error .optionInvalidValue) := by
  constructor
  · intro h
    rw [cfgLoadUpdateTimeout, if_neg (by linarith)]
  · intro h hps hds
    rw [cfgLoadUpdateTimeout, if_pos h, if_neg hps, if_neg hds]

theorem C9_protocol_timeout_witness :
    cfgLoadUpdateTimeout 45 .cfgSourceParam 30 .cfgSourceConfig = .ok (45, 30) ∧
    cfgLoadUpdateTimeout 10 .cfgSourceParam 10 .cfgSourceParam =
      .error .optionInvalidValue :=
  ⟨(C9_protocol_timeout 45 30 .cfgSourceParam .cfgSourceConfig).1 (by norm_num),
    (C9_protocol_timeout 10 10 .cfgSourceParam .cfgSourceParam).2 (by norm_num)
      (by decide) (by decide)⟩

end ConfigLoad

namespace IoReadModel

/-- Reader state for an IoRead with no filters attached: the output buffer
holding bytes a line read buffered past the returned line (this->output),
and the bytes the driver will still deliver. -/
structure IoReadState where
  output : List Nat
  stream : List Nat
deriving DecidableEq

/-- A destination buffer: contents and capacity. -/
structure IoBuffer where
  data : List Nat
  size : Nat
deriving DecidableEq

def bufRemains (b : IoBuffer) : Nat := b.size - b.data.length

/-- ioRead (read.c lines 178-212): copy leftover line-read output into the
buffer first, then ioReadInternal (blocking, no filters: bytes move from
the driver until the buffer is full or EOF); returns the buffer, the new
state, and the count outputRemains - bufRemains(buffer). -/
def ioRead (s : IoReadState) (buffer : IoBuffer) : IoBuffer × IoReadState × Nat :=
  let outputRemains := bufRemains buffer
  let size := if 0 < s.output.length ∧ 0 < bufRemains buffer then
      min s.output.length (bufRemains buffer) else 0
  let buffer1 : IoBuffer := { buffer with data := buffer.data ++ s.output.take size }
  let output1 := s.output.drop size
  let buffer2 : IoBuffer :=
    { buffer1 with data := buffer1.data ++ s.stream.take (bufRemains buffer1) }
  let stream1 := s.stream.drop (bufRemains buffer1)
  (buffer2, ⟨output1, stream1⟩, outputRemains - bufRemains buffer2)

/-- memchr(buf, LF, used): index of the first linefeed. -/
def memchrLF : List Nat → Option Nat
  | [] => none
  | b :: rest => if b = 10 then some 0 else (memchrLF rest).map (· + 1)

/-- ioReadLineParam's do/while (read.c lines 242-281), one fuel unit per
iteration; each iteration that recurses consumes at least one stream byte,
so stream length + 1 fuel (supplied by the wrapper) always suffices.
Search the output buffer for a linefeed; on a miss error if the output
buffer is full, error (or return the remainder, when allowEof) at EOF,
else pull more data non-blocking into the output buffer and retry. -/
def ioReadLineLoop (bufSize : Nat) (allowEof : Bool) :
    Nat → IoReadState → Except String (List Nat × IoReadState)
  | 0, _ => .error "unable to find line in buffer"
  | fuel + 1, s =>
    match memchrLF s.output with
    | some lfIdx => .ok (s.output.take lfIdx, ⟨s.output.drop (lfIdx + 1), s.stream⟩)
    | none =>
      if bufSize ≤ s.output.length then .error "unable to find line in buffer"
      else if s.stream.isEmpty then
        if allowEof then .ok (s.output, s)
        else .error "unexpected eof while reading line"
      else
        ioReadLineLoop bufSize allowEof fuel
          ⟨s.output ++ s.stream.take (bufSize - s.output.length),
            s.stream.drop (bufSize - s.output.length)⟩

def ioReadLineParam (bufSize : Nat) (s : IoReadState) (allowEof : Bool) :
    Except String (List Nat × IoReadState) :=
  ioReadLineLoop bufSize allowEof (s.stream.length + 1) s

/-- ioReadLine: allowEof = false. -/
def ioReadLine (bufSize : Nat) (s : IoReadState) : Except String (List Nat × IoReadState) :=
  ioReadLineParam bufSize s false

inductive IoOp where
  | read (n : Nat)
  | line

/-- An interleaving of bulk reads (each into a fresh buffer of the given
capacity) and line reads over one reader. -/
def runIoOps (bufSize : Nat) : IoReadState → List IoOp →
    Except String (List (List Nat) × IoReadState)
  | s, [] => .ok ([], s)
  | s, IoOp.read n :: ops =>
    let r := ioRead s ⟨[], n⟩
    (runIoOps bufSize r.2.1 ops).map fun rr => (r.1.data :: rr.1, rr.2)
  | s, IoOp.line :: ops =>
    (ioReadLine bufSize s).bind fun r =>
      (runIoOps bufSize r.2 ops).map fun rr => (r.1 :: rr.1, rr.2)

/-- The bytes the caller received, with the linefeed consumed by each line
read reinserted. -/
def deliveredJoin : List IoOp → List (List Nat) → List Nat
  | IoOp.read _ :: ops, out :: outs => out ++ deliveredJoin ops outs
  | IoOp.line :: ops, out :: outs => out ++ 10 :: deliveredJoin ops outs
  | _, _ => []

theorem take_drop_split (out st : List Nat) (R : Nat) :
    out.take (min out.length R) ++ st.take (R - min out.length R) = (out ++ st).take R ∧
    out.drop (min out.length R) ++ st.drop (R - min out.length R) = (out ++ st).drop R := by
  rcases le_or_lt out.length R with h | h
  · rw [Nat.min_eq_left h]
    constructor
    · rw [List.take_length, List.take_append_eq_append_take, List.take_of_length_le h]
    · rw [List.drop_length, List.drop_append_eq_append_drop, List.drop_of_length_le h]
  · rw [Nat.min_eq_right (le_of_lt h)]
    have h0 : R - out.length = 0 := by omega
    constructor
    · rw [Nat.sub_self, List.take_append_eq_append_take, h0]
    · rw [Nat.sub_self, List.drop_append_eq_append_drop, h0]

theorem ioRead_spec (s : IoReadState) (buffer : IoBuffer) :
    (ioRead s buffer).1.data =
      buffer.data ++ (s.output ++ s.stream).take (bufRemains buffer) ∧
    (ioRead s buffer).2.2 = ((s.output ++ s.stream).take (bufRemains buffer)).length ∧
    (ioRead s buffer).2.1.output ++ (ioRead s buffer).2.1.stream =
      (s.output ++ s.stream).drop (bufRemains buffer) := by
  have hsize : (if 0 < s.output.length ∧ 0 < buffer.size - buffer.data.length then
      min s.output.length (buffer.size - buffer.data.length) else 0)
      = min s.output.length (buffer.size - buffer.data.length) := by
    split_ifs with h
    · rfl
    · omega
  have hrem1 : buffer.size -
      (buffer.data ++
        s.output.take (min s.output.length (buffer.size - buffer.data.length))).length
      = (buffer.size - buffer.data.length) -
        min s.output.length (buffer.size - buffer.data.length) := by
    simp only [List.length_append, List.length_take]
    omega
  simp only [ioRead, bufRemains]
  rw [hsize, hrem1]
  refine ⟨?_, ?_, ?_⟩
  · rw [List.append_assoc,
      (take_drop_split s.output s.stream (buffer.size - buffer.data.length)).1]
  · simp only [List.length_append, List.length_take]
    omega
  · exact (take_drop_split s.output s.stream (buffer.size - buffer.data.length)).2

theorem memchrLF_split : ∀ (l : List Nat) (i : Nat), memchrLF l = some i →
    l.take i ++ 10 :: l.drop (i + 1) = l
  | [], i, h => by simp [memchrLF] at h
  | b :: rest, i, h => by
    rw [memchrLF] at h
    by_cases hb : b = 10
    · rw [if_pos hb] at h
      simp only [Option.some.injEq] at h
      subst h
      simp [hb]
    · rw [if_neg hb] at h
      cases hm : memchrLF rest with
      | none => rw [hm] at h; simp at h
      | some j =>
        rw [hm] at h
        simp only [Option.map_some', Option.some.injEq] at h
        subst h
        simp only [List.take_succ_cons, List.drop_succ_cons, List.cons_append]
        rw [memchrLF_split rest j hm]

theorem ioReadLineLoop_ok (bufSize : Nat) : ∀ (fuel : Nat) (s s' : IoReadState)
    (line : List Nat),
    ioReadLineLoop bufSize false fuel s = .ok (line, s') →
    line ++ 10 :: (s'.output ++ s'.stream) = s.output ++ s.stream := by
  intro fuel
  induction fuel with
  | zero =>
    intro s s' line h
    simp [ioReadLineLoop] at h
  | succ n ih =>
    intro s s' line h
    rw [ioReadLineLoop] at h
    cases hidx : memchrLF s.output with
    | some lfIdx =>
      rw [hidx] at h
      have hsplit := memchrLF_split s.output lfIdx hidx
      simp only [Except.ok.injEq, Prod.mk.injEq] at h
      obtain ⟨hline, hs⟩ := h
      subst hline
      subst hs
      dsimp only
      conv_rhs => rw [← hsplit]
      rw [List.append_assoc, List.cons_append]
    | none =>
      rw [hidx] at h
      by_cases hfull : bufSize ≤ s.output.length
      · rw [if_pos hfull] at h
        simp at h
      · rw [if_neg hfull] at h
        by_cases heof : s.stream.isEmpty
        · rw [if_pos heof] at h
          simp at h
        · rw [if_neg heof] at h
          have hrec := ih _ s' line h
          rw [List.append_assoc, List.take_append_drop] at hrec
          simpa using hrec

/-- C10: interleaving line reads and bulk reads loses and reorders
nothing: a bulk read first returns the bytes an earlier line read buffered
beyond its returned line, in order, before newly read bytes, and its
return value counts exactly the bytes added to the buffer; joining all
outputs of any successful interleaving (with the linefeed each line read
consumed reinserted) reconstructs the byte stream exactly. -/
theorem C10_read_after_line (bufSize : Nat) (s s' : IoReadState) (ops : List IoOp)
    (outs : List (List Nat)) (buffer : IoBuffer)
    (h : runIoOps bufSize s ops = .ok (outs, s')) :
    ((ioRead s buffer).1.data =
        buffer.data ++ (s.output ++ s.stream).take (bufRemains buffer) ∧
      (ioRead s buffer).2.2 = ((s.output ++ s.stream).take (bufRemains buffer)).length) ∧
    deliveredJoin ops outs ++ (s'.output ++ s'.stream) = s.output ++ s.stream := by
  refine ⟨⟨(ioRead_spec s buffer).1, (ioRead_spec s buffer).2.1⟩, ?_⟩
  clear buffer
  induction ops generalizing s outs with
  | nil =>
    rw [runIoOps] at h
    simp only [Except.ok.injEq, Prod.mk.injEq] at h
    obtain ⟨houts, hs⟩ := h
    subst houts
    subst hs
    simp [deliveredJoin]
  | cons op ops ih =>
    cases op with
    | read n =>
      rw [runIoOps] at h
      cases hrec : runIoOps bufSize (ioRead s ⟨[], n⟩).2.1 ops with
      | error e =>
        rw [hrec, Except.map] at h
        exact Except.noConfusion h
      | ok rr =>
        rw [hrec, Except.map] at h
        simp only [Except.ok.injEq, Prod.mk.injEq] at h
        obtain ⟨houts, hs⟩ := h
        subst hs
        have hio := ioRead_spec s ⟨[], n⟩
        have hihh := ih (ioRead s ⟨[], n⟩).2.1 rr.1 (by rw [hrec])
        rw [← houts]
        rw [deliveredJoin]
        rw [List.append_assoc, hihh, hio.2.2]
        have hdata := hio.1
        simp only [bufRemains, List.nil_append] at hdata ⊢
        rw [hdata]
        simp [List.take_append_drop]
    | line =>
      rw [runIoOps] at h
      cases hline : ioReadLine bufSize s with
      | error e =>
        rw [hline, Except.bind] at h
        exact Except.noConfusion h
      | ok r =>
        rw [hline, Except.bind] at h
        cases hrec : runIoOps bufSize r.2 ops with
        | error e =>
          rw [hrec, Except.map] at h
          exact Except.noConfusion h
        | ok rr =>
          rw [hrec, Except.map] at h
          simp only [Except.ok.injEq, Prod.mk.injEq] at h
          obtain ⟨houts, hs⟩ := h
          subst hs
          have hlspec := ioReadLineLoop_ok bufSize (s.stream.length + 1) s r.2 r.1 hline
          have hihh := ih r.2 rr.1 (by rw [hrec])
          rw [← houts, deliveredJoin, List.append_assoc, List.cons_append, hihh, ← hlspec]


theorem C10_read_after_line_witness :
    runIoOps 8 ⟨[], [104, 105, 10, 120, 121]⟩ [IoOp.line, IoOp.read 2] =
      Except.ok ([[104, 105], [120, 121]], ⟨[], []⟩) ∧
    (((ioRead ⟨[], [104, 105, 10, 120, 121]⟩ ⟨[], 3⟩).1.data =
        [] ++ (([] : List Nat) ++ [104, 105, 10, 120, 121]).take (bufRemains ⟨[], 3⟩) ∧
      (ioRead ⟨[], [104, 105, 10, 120, 121]⟩ ⟨[], 3⟩).2.2 =
        ((([] : List Nat) ++ [104, 105, 10, 120, 121]).take (bufRemains ⟨[], 3⟩)).length) ∧
      deliveredJoin [IoOp.line, IoOp.read 2] [[104, 105], [120, 121]] ++
          (([] : List Nat) ++ ([] : List Nat)) =
        ([] : List Nat) ++ [104, 105, 10, 120, 121]) :=
  ⟨rfl,
   C10_read_after_line 8 ⟨[], [104, 105, 10, 120, 121]⟩ ⟨[], []⟩ [IoOp.line, IoOp.read 2]
     [[104, 105], [120, 121]] ⟨[], 3⟩ rfl⟩

end IoReadModel
